import Mathlib

/-!
Verification of the parallel sudoku solver (src/src/sudoku_solver.cpp,
src/src/sudoku_solver.h).

The solver counts the solutions of an N x N sudoku-style puzzle with three
strategies: sequential backtracking (`backtrackSingleThread`), a naive
parallel split over the candidate values of the first empty cell
(`solveParallel`), and a partition-based parallel solver that expands the
search tree `partitionDepth` levels deep into independent subproblems and
solves each with a bitmask-accelerated engine (`solveParallelOptimized`).

Modelling notes:
* the board is a flat `List Int` (row-major, `0` = empty), mirroring
  `std::vector<int> board`;
* the bitmask state holds one `Nat` per row / column / block; all mask
  operations keep the masks below `2 ^ 32`, exactly as `uint32_t` does,
  and the out-of-range guard (`value < 1 || value > 31`) is reproduced
  verbatim;
* recursion over board positions is expressed with an explicit fuel
  argument equal to the number of remaining positions plus one
  (`N*N + 1 - pos`); the C++ recursion increases `pos` by exactly one per
  level, so the fueled function performs exactly the same call tree
  (a fuel-insensitivity theorem is proved below for the termination claim);
* thread counts (`omp_set_num_threads`) affect scheduling only; the
  parallel reductions are order-independent sums, modelled as sums over
  the task lists in the order the source enumerates them;
* in-place mutation of the board / mask state (mutate, recurse, restore) is
  modelled by threading the state through the computation and returning it
  alongside the solution count, so that the restoration discipline of the
  source is a provable property rather than an assumption.
-/

/-- Raw cell read `board[i]` (every C++ access happens at `i < board.length`;
out-of-range reads return the default `0`). -/
def cell (board : List Int) (i : Nat) : Int :=
  board.getD i 0

/-- `SudokuSolver::getIndex` (sudoku_solver.cpp:75-77): flat index of
`(row, col)`. -/
def getIndex (N row col : Nat) : Nat :=
  row * N + col

/-- `SudokuSolver::isInRow` (sudoku_solver.cpp:80-87). -/
def isInRow (N : Nat) (board : List Int) (row : Nat) (value : Int) : Bool :=
  (List.range N).any fun col => cell board (getIndex N row col) == value

/-- `SudokuSolver::isInCol` (sudoku_solver.cpp:90-97). -/
def isInCol (N : Nat) (board : List Int) (col : Nat) (value : Int) : Bool :=
  (List.range N).any fun row => cell board (getIndex N row col) == value

/-- `SudokuSolver::isInBlock` (sudoku_solver.cpp:100-112). -/
def isInBlock (N blockSize : Nat) (board : List Int) (row col : Nat) (value : Int) : Bool :=
  (List.range blockSize).any fun dr =>
    (List.range blockSize).any fun dc =>
      cell board (getIndex N (row / blockSize * blockSize + dr)
        (col / blockSize * blockSize + dc)) == value

/-- `SudokuSolver::isValid` (sudoku_solver.cpp:115-117). -/
def isValid (N blockSize : Nat) (board : List Int) (row col : Nat) (value : Int) : Bool :=
  !isInRow N board row value && !isInCol N board col value &&
    !isInBlock N blockSize board row col value

/-- `SudokuSolver::isValidWithBoard` (sudoku_solver.cpp:120-147): same three
scans as `isValid`, over an explicitly supplied board. -/
def isValidWithBoard (N blockSize : Nat) (boardRef : List Int) (row col : Nat)
    (value : Int) : Bool :=
  !((List.range N).any fun c => cell boardRef (getIndex N row c) == value) &&
  !((List.range N).any fun r => cell boardRef (getIndex N r col) == value) &&
  !((List.range blockSize).any fun dr =>
      (List.range blockSize).any fun dc =>
        cell boardRef (getIndex N (row / blockSize * blockSize + dr)
          (col / blockSize * blockSize + dc)) == value)

/-- The candidate values `1..N` enumerated by every `for (value = 1; value <= N)`
loop of the source, in increasing order. -/
def valueRange (N : Nat) : List Int :=
  (List.range N).map fun i => Int.ofNat i + 1

/-- `SudokuSolver::getPossibleValues` (sudoku_solver.cpp:162-170): the set of
values `1..N` accepted by `isValid`, in increasing order (`std::set<int>`
iterates in increasing order, and values are inserted in increasing order). -/
def getPossibleValues (N blockSize : Nat) (board : List Int) (row col : Nat) : List Int :=
  (valueRange N).filter fun value => isValid N blockSize board row col value

/-- All 32 bits of a `uint32_t`. -/
def mask32 : Nat := 2 ^ 32 - 1

/-- `BitMaskState` (sudoku_solver.h:10-19): per-row / column / block occupancy
bitmasks.  Each `uint32_t` mask is modelled as a `Nat`; the source's guard
keeps every stored bit index in `1..31`, so the masks stay below `2 ^ 32`. -/
structure BitMaskState where
  rowMask : List Nat
  colMask : List Nat
  blockMask : List Nat
deriving DecidableEq

/-- `BitMaskState::BitMaskState(int N)` (sudoku_solver.cpp:8-12). -/
def BitMaskState.init (N : Nat) : BitMaskState :=
  { rowMask := List.replicate N 0
    colMask := List.replicate N 0
    blockMask := List.replicate N 0 }

/-- The block index `(row / blockSize) * blockSize + (col / blockSize)`
computed by every `BitMaskState` operation (sudoku_solver.cpp:19,30,41). -/
def blockIndex (blockSize row col : Nat) : Nat :=
  row / blockSize * blockSize + col / blockSize

/-- `BitMaskState::set` (sudoku_solver.cpp:14-23). -/
def BitMaskState.set (s : BitMaskState) (N blockSize row col : Nat) (value : Int) :
    BitMaskState :=
  if value < 1 || value > 31 then s
  else
    let blockIdx := blockIndex blockSize row col
    { rowMask := s.rowMask.set row (s.rowMask.getD row 0 ||| 1 <<< value.toNat)
      colMask := s.colMask.set col (s.colMask.getD col 0 ||| 1 <<< value.toNat)
      blockMask := s.blockMask.set blockIdx (s.blockMask.getD blockIdx 0 ||| 1 <<< value.toNat) }

/-- `BitMaskState::unset` (sudoku_solver.cpp:25-34); `&= ~(1u << value)` on a
`uint32_t` is a conjunction with the 32-bit complement of the bit. -/
def BitMaskState.unset (s : BitMaskState) (N blockSize row col : Nat) (value : Int) :
    BitMaskState :=
  if value < 1 || value > 31 then s
  else
    let blockIdx := blockIndex blockSize row col
    { rowMask := s.rowMask.set row (s.rowMask.getD row 0 &&& (mask32 ^^^ 1 <<< value.toNat))
      colMask := s.colMask.set col (s.colMask.getD col 0 &&& (mask32 ^^^ 1 <<< value.toNat))
      blockMask := s.blockMask.set blockIdx
        (s.blockMask.getD blockIdx 0 &&& (mask32 ^^^ 1 <<< value.toNat)) }

/-- `BitMaskState::canPlace` (sudoku_solver.cpp:36-44). -/
def BitMaskState.canPlace (s : BitMaskState) (N blockSize row col : Nat) (value : Int) :
    Bool :=
  if value < 1 || value > 31 then false
  else
    let blockIdx := blockIndex blockSize row col
    ((s.rowMask.getD row 0 &&& 1 <<< value.toNat) == 0) &&
    ((s.colMask.getD col 0 &&& 1 <<< value.toNat) == 0) &&
    ((s.blockMask.getD blockIdx 0 &&& 1 <<< value.toNat) == 0)

/-- `Subproblem` (sudoku_solver.h:22-28): an owned snapshot of board, bitmask
state and scan cursor. -/
structure Subproblem where
  board : List Int
  state : BitMaskState
  startPos : Nat
deriving DecidableEq

/-- `SudokuSolver::solveFromState` (sudoku_solver.cpp:200-228): pure recursive
count; the source copies the board before every modification, so the model
is a plain function of the board.  The fuel argument is the number of
remaining positions plus one; the source recursion advances `pos` by one
per level, so the wrapper `solveFromStateCount` supplies exactly enough. -/
def solveFromState (N blockSize : Nat) : Nat → List Int → Nat → Nat
  | 0, _, _ => 0
  | fuel + 1, boardRef, pos =>
    if pos = N * N then 1
    else
      let row := pos / N
      let col := pos % N
      if cell boardRef (getIndex N row col) != 0 then
        solveFromState N blockSize fuel boardRef (pos + 1)
      else
        (valueRange N).foldl
          (fun count value =>
            if isValidWithBoard N blockSize boardRef row col value then
              count + solveFromState N blockSize fuel
                (boardRef.set (getIndex N row col) value) (pos + 1)
            else count)
          0

/-- `solveFromState` invoked with exactly enough fuel to walk from `pos`
to `N * N`. -/
def solveFromStateCount (N blockSize : Nat) (boardRef : List Int) (pos : Nat) : Nat :=
  solveFromState N blockSize (N * N + 1 - pos) boardRef pos

/-- The candidate loop `for (value = 1; value <= N) { if (can) { place;
recurse; unplace; } }` shared by `backtrackSingleThread`
(sudoku_solver.cpp:187-194) and `backtrackWithBitmask`
(sudoku_solver.cpp:359-370), threading the mutable search state `σ`
(board, or board plus bitmask state) through the iterations. -/
def backtrackLoop {σ : Type} (can : σ → Int → Bool) (doPlace : σ → Int → σ)
    (undoPlace : σ → Int → σ) (recurse : σ → Nat × σ) :
    σ → List Int → Nat × σ
  | st, [] => (0, st)
  | st, value :: rest =>
    if can st value then
      let r := recurse (doPlace st value)
      let st2 := undoPlace r.2 value
      let r2 := backtrackLoop can doPlace undoPlace recurse st2 rest
      (r.1 + r2.1, r2.2)
    else
      backtrackLoop can doPlace undoPlace recurse st rest

/-- `SudokuSolver::backtrackSingleThread` (sudoku_solver.cpp:173-197), with the
in-place mutation of the member board made explicit: the function returns the
solution count together with the board as it is left when the call returns. -/
def backtrackSingleThreadAux (N blockSize : Nat) : Nat → List Int → Nat → Nat × List Int
  | 0, board, _ => (0, board)
  | fuel + 1, board, pos =>
    if pos = N * N then (1, board)
    else
      let row := pos / N
      let col := pos % N
      if cell board (getIndex N row col) != 0 then
        backtrackSingleThreadAux N blockSize fuel board (pos + 1)
      else
        backtrackLoop
          (fun b value => isValid N blockSize b row col value)
          (fun b value => b.set (getIndex N row col) value)
          (fun b _ => b.set (getIndex N row col) 0)
          (fun b => backtrackSingleThreadAux N blockSize fuel b (pos + 1))
          board (valueRange N)

/-- `backtrackSingleThreadAux` with exactly enough fuel. -/
def backtrackSingleThread (N blockSize : Nat) (board : List Int) (pos : Nat) :
    Nat × List Int :=
  backtrackSingleThreadAux N blockSize (N * N + 1 - pos) board pos

/-- `SudokuSolver::backtrackWithBitmask` (sudoku_solver.cpp:345-373), threading
the mutated board and bitmask state explicitly. -/
def backtrackWithBitmaskAux (N blockSize : Nat) :
    Nat → List Int × BitMaskState → Nat → Nat × (List Int × BitMaskState)
  | 0, bs, _ => (0, bs)
  | fuel + 1, bs, pos =>
    if pos = N * N then (1, bs)
    else
      let row := pos / N
      let col := pos % N
      if cell bs.1 (getIndex N row col) != 0 then
        backtrackWithBitmaskAux N blockSize fuel bs (pos + 1)
      else
        backtrackLoop
          (fun bs value => bs.2.canPlace N blockSize row col value)
          (fun bs value => (bs.1.set (getIndex N row col) value,
            bs.2.set N blockSize row col value))
          (fun bs value => (bs.1.set (getIndex N row col) 0,
            bs.2.unset N blockSize row col value))
          (fun bs => backtrackWithBitmaskAux N blockSize fuel bs (pos + 1))
          bs (valueRange N)

/-- `backtrackWithBitmaskAux` with exactly enough fuel. -/
def backtrackWithBitmask (N blockSize : Nat) (board : List Int) (state : BitMaskState)
    (pos : Nat) : Nat × (List Int × BitMaskState) :=
  backtrackWithBitmaskAux N blockSize (N * N + 1 - pos) (board, state) pos

/-- `SudokuSolver::solveSubproblem` (sudoku_solver.cpp:376-383): copy the
subproblem's board and state and run the bitmask engine from its cursor. -/
def solveSubproblem (N blockSize : Nat) (subproblem : Subproblem) : Nat :=
  (backtrackWithBitmask N blockSize subproblem.board subproblem.state
    subproblem.startPos).1

/-- `while (pos < N*N && board[pos] != 0) pos++;` with fuel `N*N - pos`
(the loop advances `pos` by one per iteration while `pos < N*N`). -/
def nextEmptyFrom (board : List Int) : Nat → Nat → Nat
  | 0, pos => pos
  | fuel + 1, pos =>
    if cell board pos != 0 then nextEmptyFrom board fuel (pos + 1) else pos

/-- The empty-cell scan of `generateSubproblemsRecursive`
(sudoku_solver.cpp:394-397) and of `solveParallel` (sudoku_solver.cpp:248-259):
first flat index `p ≥ pos` with `board[p] == 0`, or `N*N` when none exists. -/
def nextEmpty (N : Nat) (board : List Int) (pos : Nat) : Nat :=
  nextEmptyFrom board (N * N - pos) pos

/-- `SudokuSolver::generateSubproblemsRecursive` (sudoku_solver.cpp:386-429).
The argument is `maxDepth - depth` (the source recurses with `depth + 1` and a
fixed `maxDepth`); the accumulation into `results` is modelled by returning
the list of emitted subproblems in emission order.  The source's trailing
`if (!foundAny && depth < maxDepth) return;` is a no-op and has no model. -/
def generateSubproblemsRecursive (N blockSize : Nat) : Nat → Subproblem → List Subproblem
  | 0, current => [current]
  | remaining + 1, current =>
    let pos := nextEmpty N current.board current.startPos
    if pos ≥ N * N then [current]
    else
      let row := pos / N
      let col := pos % N
      (valueRange N).foldl
        (fun results value =>
          if current.state.canPlace N blockSize row col value then
            results ++ generateSubproblemsRecursive N blockSize remaining
              { board := current.board.set pos value
                state := current.state.set N blockSize row col value
                startPos := pos + 1 }
          else results)
        []

/-- The tracker-initialisation double loop of `SudokuSolver::generateSubproblems`
(sudoku_solver.cpp:437-445): `set` every non-zero cell of the board. -/
def initialTracker (N blockSize : Nat) (board : List Int) : BitMaskState :=
  (List.range N).foldl
    (fun st row =>
      (List.range N).foldl
        (fun st col =>
          let value := cell board (getIndex N row col)
          if value != 0 then st.set N blockSize row col value else st)
        st)
    (BitMaskState.init N)

/-- `SudokuSolver::generateSubproblems` (sudoku_solver.cpp:432-448). -/
def generateSubproblems (N blockSize : Nat) (board : List Int) (partitionDepth : Nat) :
    List Subproblem :=
  generateSubproblemsRecursive N blockSize partitionDepth
    { board := board
      state := initialTracker N blockSize board
      startPos := 0 }

/-- `SudokuSolver` (sudoku_solver.h:30-77): the fields the solving contract
depends on (`runningTime` is instrumentation only and not modelled). -/
structure SudokuSolver where
  N : Nat
  blockSize : Nat
  board : List Int
  numSolutions : Nat
deriving DecidableEq

/-- The integer square root `static_cast<int>(sqrt(N))` computed by the
constructor (sudoku_solver.cpp:48): the largest `b` with `b * b ≤ N`
(`sqrt` on a `double` is exact for every representable perfect square, and
the cast truncates).  Defined by a bounded scan so that it evaluates by
kernel reduction. -/
def intSqrt (N : Nat) : Nat :=
  (List.range (N + 1)).foldl (fun acc b => if b * b ≤ N then b else acc) 0

/-- `SudokuSolver::SudokuSolver(int N)` (sudoku_solver.cpp:47-63):
`blockSize = (int)sqrt(N)`, the board is `N*N` zeros, `numSolutions = 0`.
Note that for N not a perfect square or N > 31 the constructor only prints
a diagnostic to stderr and continues; there is no rejection. -/
def SudokuSolver.init (N : Nat) : SudokuSolver :=
  { N := N
    blockSize := intSqrt N
    board := List.replicate (N * N) 0
    numSolutions := 0 }

/-- `SudokuSolver::loadBoard` (sudoku_solver.cpp:66-72): reject (leaving the
solver unchanged) unless the supplied data has exactly `N * N` entries. -/
def SudokuSolver.loadBoard (s : SudokuSolver) (boardData : List Int) : SudokuSolver :=
  if boardData.length ≠ s.N * s.N then s
  else { s with board := boardData }

/-- `SudokuSolver::solveSingleThread` (sudoku_solver.cpp:231-239):
`numSolutions = backtrackSingleThread(0)` (the member board is restored by
the engine; the restoration theorem is proved below). -/
def SudokuSolver.solveSingleThread (s : SudokuSolver) : SudokuSolver :=
  { s with numSolutions := (backtrackSingleThread s.N s.blockSize s.board 0).1 }

/-- `SudokuSolver::solveParallel` (sudoku_solver.cpp:242-297).  The row-major
double loop of lines 251-259 finds the first empty flat index; `numThreads`
only configures OpenMP scheduling and the `reduction(+)` total is the sum of
the per-value counts in value order. -/
def SudokuSolver.solveParallel (s : SudokuSolver) (numThreads : Nat) : SudokuSolver :=
  let p := nextEmpty s.N s.board 0
  if p ≥ s.N * s.N then
    { s with numSolutions := 1 }
  else
    let firstRow := p / s.N
    let firstCol := p % s.N
    let valuesList := getPossibleValues s.N s.blockSize s.board firstRow firstCol
    { s with
      numSolutions := valuesList.foldl
        (fun totalSolutions value =>
          totalSolutions + solveFromStateCount s.N s.blockSize
            (s.board.set (getIndex s.N firstRow firstCol) value)
            (getIndex s.N firstRow firstCol + 1))
        0 }

/-- `SudokuSolver::solveParallelOptimized` (sudoku_solver.cpp:451-483):
generate the subproblems, then sum their independent counts
(`reduction(+)` with dynamic scheduling: an order-independent sum). -/
def SudokuSolver.solveParallelOptimized (s : SudokuSolver) (numThreads partitionDepth : Nat) :
    SudokuSolver :=
  let subproblems := generateSubproblems s.N s.blockSize s.board partitionDepth
  if subproblems.isEmpty then
    { s with numSolutions := 0 }
  else
    { s with numSolutions := (subproblems.map (solveSubproblem s.N s.blockSize)).sum }

/-! ## Specification predicates -/

/-- Every mask value fits in a `uint32_t`.  Every `BitMaskState` arising in the
C++ program satisfies this by construction of the type. -/
def BitMaskState.wf (s : BitMaskState) : Prop :=
  (∀ m ∈ s.rowMask, m < 2 ^ 32) ∧ (∀ m ∈ s.colMask, m < 2 ^ 32) ∧
    (∀ m ∈ s.blockMask, m < 2 ^ 32)

/-- The tracker is the exact occupancy image of the board: the masks have
length `N` and, for every representable symbol (`1..31`), bit `value` of a
row / column / block mask is set exactly when the symbol occurs in that
row / column / block of the board. -/
def trackerMatches (N blockSize : Nat) (board : List Int) (st : BitMaskState) : Prop :=
  st.rowMask.length = N ∧ st.colMask.length = N ∧ st.blockMask.length = N ∧
  ∀ value : Int, 1 ≤ value → value ≤ 31 →
    (∀ row, row < N →
      (st.rowMask.getD row 0).testBit value.toNat = isInRow N board row value) ∧
    (∀ col, col < N →
      (st.colMask.getD col 0).testBit value.toNat = isInCol N board col value) ∧
    (∀ row col, row < N → col < N →
      (st.blockMask.getD (blockIndex blockSize row col) 0).testBit value.toNat
        = isInBlock N blockSize board row col value)

/-- The board satisfies the row / column / block uniqueness constraints on its
non-zero cells: no value occurs twice in a row, a column, or a block. -/
def noDuplicates (N blockSize : Nat) (board : List Int) : Prop :=
  (∀ row, row < N → ∀ c1, c1 < N → ∀ c2, c2 < N → c1 ≠ c2 →
    cell board (getIndex N row c1) ≠ 0 →
    cell board (getIndex N row c1) ≠ cell board (getIndex N row c2)) ∧
  (∀ col, col < N → ∀ r1, r1 < N → ∀ r2, r2 < N → r1 ≠ r2 →
    cell board (getIndex N r1 col) ≠ 0 →
    cell board (getIndex N r1 col) ≠ cell board (getIndex N r2 col)) ∧
  (∀ r1, r1 < N → ∀ c1, c1 < N → ∀ r2, r2 < N → ∀ c2, c2 < N → (r1, c1) ≠ (r2, c2) →
    blockIndex blockSize r1 c1 = blockIndex blockSize r2 c2 →
    cell board (getIndex N r1 c1) ≠ 0 →
    cell board (getIndex N r1 c1) ≠ cell board (getIndex N r2 c2))

/-! ## Basic helper lemmas -/

theorem getIndex_div_mod (N pos : Nat) : getIndex N (pos / N) (pos % N) = pos := by
  simp only [getIndex]
  rw [Nat.mul_comm]
  exact Nat.div_add_mod pos N

theorem cell_set_eq (board : List Int) (i : Nat) (v : Int) (h : i < board.length) :
    cell (board.set i v) i = v := by
  simp [cell, List.getD_eq_getElem?_getD, List.getElem?_set, h]

theorem cell_set_ne (board : List Int) {i j : Nat} (v : Int) (h : i ≠ j) :
    cell (board.set i v) j = cell board j := by
  simp [cell, List.getD_eq_getElem?_getD, List.getElem?_set, h]

theorem set_cell_zero (board : List Int) (i : Nat) (h : cell board i = 0) :
    board.set i 0 = board := by
  induction board generalizing i with
  | nil => rfl
  | cons a l ih =>
    cases i with
    | zero => simp [cell, List.getD] at h; simp [List.set, h]
    | succ n => simp only [List.set]; rw [ih n (by simpa [cell, List.getD] using h)]

theorem foldl_add_if (f : Int → Nat) (p : Int → Bool) (l : List Int) (init : Nat) :
    l.foldl (fun acc v => if p v then acc + f v else acc) init
      = init + ((l.filter p).map f).sum := by
  induction l generalizing init with
  | nil => simp
  | cons a l ih =>
    by_cases h : p a <;> simp [List.foldl_cons, h, ih, List.filter_cons] <;> omega

theorem foldl_add (f : Int → Nat) (l : List Int) (init : Nat) :
    l.foldl (fun acc v => acc + f v) init = init + (l.map f).sum := by
  induction l generalizing init with
  | nil => simp
  | cons a l ih => simp [List.foldl_cons, ih]; omega

theorem foldl_append_if {β : Type} (g : Int → List β) (p : Int → Bool) (l : List Int)
    (init : List β) :
    l.foldl (fun res v => if p v then res ++ g v else res) init
      = init ++ (l.filter p).flatMap g := by
  induction l generalizing init with
  | nil => simp
  | cons a l ih =>
    by_cases h : p a <;> simp [List.foldl_cons, h, ih, List.filter_cons]

theorem mem_valueRange {N : Nat} {v : Int} : v ∈ valueRange N ↔ 1 ≤ v ∧ v ≤ N := by
  unfold valueRange
  rw [List.mem_map]
  simp only [Int.ofNat_eq_coe, List.mem_range]
  constructor
  · rintro ⟨i, hi, rfl⟩
    constructor
    · omega
    · have : (i : Int) < (N : Int) := by exact_mod_cast hi
      omega
  · intro ⟨h1, h2⟩
    refine ⟨(v - 1).toNat, ?_, ?_⟩
    · have hc : ((v - 1).toNat : Int) = v - 1 := Int.toNat_of_nonneg (by omega)
      have hvN : ((v - 1).toNat : Int) < (N : Int) := by omega
      exact_mod_cast hvN
    · have hc : ((v - 1).toNat : Int) = v - 1 := Int.toNat_of_nonneg (by omega)
      omega

theorem land_shift_eq_zero_iff (m v : Nat) :
    (m &&& 1 <<< v = 0) ↔ m.testBit v = false := by
  rw [Nat.one_shiftLeft]
  constructor
  · intro h
    have := congrArg (fun x => x.testBit v) h
    simpa [Nat.testBit_land, Nat.testBit_two_pow, Nat.zero_testBit] using this
  · intro h
    apply Nat.eq_of_testBit_eq
    intro i
    simp only [Nat.testBit_land, Nat.testBit_two_pow, Nat.zero_testBit]
    by_cases hiv : v = i
    · subst hiv; simp [h]
    · simp [hiv]

theorem testBit_lor_shift (m v i : Nat) :
    (m ||| 1 <<< v).testBit i = (m.testBit i || decide (v = i)) := by
  rw [Nat.one_shiftLeft, Nat.testBit_lor, Nat.testBit_two_pow]

theorem lor_shift_lt (m v : Nat) (hm : m < 2 ^ 32) (hv : v < 32) :
    m ||| 1 <<< v < 2 ^ 32 := by
  apply Nat.lt_pow_two_of_testBit
  intro i hi
  rw [testBit_lor_shift]
  have h1 : m.testBit i = false := Nat.testBit_lt_two_pow (lt_of_lt_of_le hm (Nat.pow_le_pow_right (by norm_num) hi))
  have h2 : v ≠ i := by omega
  simp [h1, h2]

theorem land_lt (m x : Nat) (hm : m < 2 ^ 32) : m &&& x < 2 ^ 32 := by
  apply Nat.lt_pow_two_of_testBit
  intro i hi
  have h1 : m.testBit i = false := Nat.testBit_lt_two_pow (lt_of_lt_of_le hm (Nat.pow_le_pow_right (by norm_num) hi))
  simp [Nat.testBit_land, h1]

/-- Setting then clearing a bit restores a 32-bit mask whose bit was clear. -/
theorem lor_land_complement (m v : Nat) (hm : m < 2 ^ 32) (hv : v < 32)
    (hbit : m.testBit v = false) :
    (m ||| 1 <<< v) &&& (mask32 ^^^ 1 <<< v) = m := by
  apply Nat.eq_of_testBit_eq
  intro i
  rw [Nat.testBit_land, testBit_lor_shift, Nat.testBit_xor]
  rw [Nat.one_shiftLeft, Nat.testBit_two_pow]
  have hmask : mask32 = 2 ^ 32 - 1 := rfl
  by_cases hlt : i < 32
  · have hm32 : (mask32).testBit i = true := by
      rw [hmask]
      simpa using Nat.testBit_two_pow_sub_one 32 i |>.trans (by simp [hlt])
    by_cases hvi : v = i
    · subst hvi; simp [hm32, hbit]
    · simp [hm32, hvi]
  · have hmfalse : m.testBit i = false :=
      Nat.testBit_lt_two_pow (lt_of_lt_of_le hm (Nat.pow_le_pow_right (by norm_num) (by omega)))
    have hm32 : (mask32).testBit i = false := by
      rw [hmask]
      simpa using Nat.testBit_two_pow_sub_one 32 i |>.trans (by simp; omega)
    have hvi : v ≠ i := by omega
    simp [hmfalse, hm32, hvi]

/-! ## Easy claims: loadBoard (C6, C10), tracker guard (C9), range overflow (C3) -/

/-- C6: a load whose length differs from `N*N` is rejected and leaves the
solver completely unchanged; a load of length exactly `N*N` replaces the
board by the supplied vector (and changes nothing else). -/
theorem loadBoard_atomic (s : SudokuSolver) (boardData : List Int) :
    (boardData.length ≠ s.N * s.N → s.loadBoard boardData = s) ∧
    (boardData.length = s.N * s.N → s.loadBoard boardData = { s with board := boardData }) := by
  constructor
  · intro h
    simp [SudokuSolver.loadBoard, h]
  · intro h
    simp [SudokuSolver.loadBoard, h]

/-- Witness for `loadBoard_atomic` at a concrete solver: a length-1 vector is
rejected by a 4 x 4 solver, and a length-16 vector is installed verbatim. -/
theorem loadBoard_atomic_witness :
    ((5 : Int) :: []).length ≠ (SudokuSolver.init 4).N * (SudokuSolver.init 4).N ∧
    (SudokuSolver.init 4).loadBoard ((5 : Int) :: []) = SudokuSolver.init 4 ∧
    (List.replicate 16 (2 : Int)).length = (SudokuSolver.init 4).N * (SudokuSolver.init 4).N ∧
    (SudokuSolver.init 4).loadBoard (List.replicate 16 (2 : Int))
      = { SudokuSolver.init 4 with board := List.replicate 16 (2 : Int) } := by
  refine ⟨by decide, ?_, by decide, ?_⟩
  · exact (loadBoard_atomic (SudokuSolver.init 4) ((5 : Int) :: [])).1 (by decide)
  · exact (loadBoard_atomic (SudokuSolver.init 4) (List.replicate 16 (2 : Int))).2 (by decide)

/-- C10: `loadBoard` validates only the length of its input, never the cell
values: any vector of length exactly `N*N` — whatever its entries, negative or
larger than `N` included — is installed verbatim, and the dimensions are kept. -/
theorem loadBoard_ignores_values (s : SudokuSolver) (boardData : List Int)
    (hlen : boardData.length = s.N * s.N) :
    (s.loadBoard boardData).board = boardData ∧
    (s.loadBoard boardData).N = s.N ∧
    (s.loadBoard boardData).blockSize = s.blockSize := by
  simp [SudokuSolver.loadBoard, hlen]

/-- Witness for `loadBoard_ignores_values`: a 2 x 2 solver accepts a vector
holding a negative value and a value far above `N`. -/
theorem loadBoard_ignores_values_witness :
    ([-7, 99, 0, 3] : List Int).length = (SudokuSolver.init 2).N * (SudokuSolver.init 2).N ∧
    ((SudokuSolver.init 2).loadBoard [-7, 99, 0, 3]).board = [-7, 99, 0, 3] := by
  refine ⟨by decide, ?_⟩
  exact (loadBoard_ignores_values (SudokuSolver.init 2) [-7, 99, 0, 3] (by decide)).1

/-- C9: the Constraint Tracker's value-range guard is `1..31`, not `1..N`.
For `N < 31` and `N < v ≤ 31`, `set` records bit `v` in all three masks and
`canPlace` on the all-zero tracker accepts `v`; only `v < 1` or `v > 31` are
absorbed as no-ops (`set` / `unset`) or rejected (`canPlace` false). -/
theorem tracker_guard_31 (N blockSize row col : Nat) (v : Int)
    (hN : N < 31) (hrow : row < N) (hcol : col < N)
    (hblk : blockIndex blockSize row col < N)
    (hlo : (N : Int) < v) (hhi : v ≤ 31) :
    ((((BitMaskState.init N).set N blockSize row col v).rowMask.getD row 0).testBit
      v.toNat = true) ∧
    ((((BitMaskState.init N).set N blockSize row col v).colMask.getD col 0).testBit
      v.toNat = true) ∧
    ((((BitMaskState.init N).set N blockSize row col v).blockMask.getD
      (blockIndex blockSize row col) 0).testBit v.toNat = true) ∧
    (BitMaskState.init N).canPlace N blockSize row col v = true ∧
    (∀ (s : BitMaskState) (w : Int), w < 1 ∨ 31 < w →
      s.set N blockSize row col w = s ∧ s.unset N blockSize row col w = s ∧
      s.canPlace N blockSize row col w = false) := by
  have hv1 : ¬(v < 1) := by omega
  have hv31 : ¬(31 < v) := by omega
  have hguard : (decide (v < 1) || decide (v > 31)) = false := by
    simp [hv1, hv31]
  have hrowlen : row < (List.replicate N (0 : Nat)).length := by simpa using hrow
  have hcollen : col < (List.replicate N (0 : Nat)).length := by simpa using hcol
  have hblklen : blockIndex blockSize row col < (List.replicate N (0 : Nat)).length := by
    simpa using hblk
  refine ⟨?_, ?_, ?_, ?_, ?_⟩
  · simp only [BitMaskState.set, BitMaskState.init, hguard, Bool.false_eq_true, if_false]
    rw [List.getD_eq_getElem?_getD, List.getElem?_set]
    simp [hrowlen, hrow, testBit_lor_shift]
  · simp only [BitMaskState.set, BitMaskState.init, hguard, Bool.false_eq_true, if_false]
    rw [List.getD_eq_getElem?_getD, List.getElem?_set]
    simp [hcollen, hcol, testBit_lor_shift]
  · simp only [BitMaskState.set, BitMaskState.init, hguard, Bool.false_eq_true, if_false]
    rw [List.getD_eq_getElem?_getD, List.getElem?_set]
    simp [hblklen, hblk, testBit_lor_shift]
  · simp only [BitMaskState.canPlace, BitMaskState.init, hguard, Bool.false_eq_true, if_false]
    simp [List.getD_eq_getElem?_getD, List.getElem?_replicate, hrow, hcol, hblk,
      Nat.zero_and]
  · intro s w hw
    have hguardw : (decide (w < 1) || decide (w > 31)) = true := by
      rcases hw with h | h
      · simp [h]
      · have : w > 31 := h
        simp [this]
    refine ⟨?_, ?_, ?_⟩
    · simp [BitMaskState.set, hguardw]
    · simp [BitMaskState.unset, hguardw]
    · simp [BitMaskState.canPlace, hguardw]

/-- Witness for `tracker_guard_31`: on a 4 x 4 tracker the out-of-range symbol
`7` (above `N = 4`, below `32`) is recorded and accepted. -/
theorem tracker_guard_31_witness :
    ((((BitMaskState.init 4).set 4 2 1 2 7).rowMask.getD 1 0).testBit (7 : Int).toNat
      = true) ∧
    (BitMaskState.init 4).canPlace 4 2 1 2 7 = true := by
  have h := tracker_guard_31 4 2 1 2 7 (by decide) (by decide) (by decide)
    (by decide) (by decide) (by decide)
  exact ⟨h.1, h.2.2.2.1⟩

set_option maxRecDepth 40000 in
/-- C3 (code bug demonstration at the failing input `N = 36 > 31`): the
constructor and `loadBoard` accept the configuration — nothing rejects it
before a search —, yet for the symbol `36` the linear-scan validity check
accepts a placement the bitmask tracker can never accept (`canPlace` is
`false` for every value above `31`, whatever the tracker contents, and `set`
cannot record such a symbol), so the bitmask-based optimized strategy
silently disagrees with the scan-based strategies. -/
theorem overflow_not_rejected :
    (SudokuSolver.init 36).N = 36 ∧
    (SudokuSolver.init 36).blockSize = 6 ∧
    ((SudokuSolver.init 36).loadBoard (List.replicate (36 * 36) 0)).board
      = List.replicate (36 * 36) 0 ∧
    isValid 36 6 (List.replicate (36 * 36) 0) 0 0 36 = true ∧
    (∀ st : BitMaskState, st.canPlace 36 6 0 0 36 = false) ∧
    (∀ st : BitMaskState, st.set 36 6 0 0 36 = st) := by
  refine ⟨rfl, by decide, ?_, by decide, ?_, ?_⟩
  · simp [SudokuSolver.loadBoard, SudokuSolver.init]
  · intro st
    simp [BitMaskState.canPlace]
  · intro st
    simp [BitMaskState.set]

set_option maxRecDepth 4000 in
/-- C2 counterexample: the fully filled all-ones 4 x 4 board has a duplicate
non-zero value in every row, column and block, yet `generateSubproblems`
returns a (one-element) non-empty list at depth `0` and at depth `3`, and all
three strategies report `1` solution, not `0`: a complete board is accepted
as a solution by position-walking alone, pre-existing violations are never
re-checked. -/
theorem dead_root_counterexample :
    (∃ c1 c2, c1 < 4 ∧ c2 < 4 ∧ c1 ≠ c2 ∧
      cell (List.replicate 16 (1 : Int)) (getIndex 4 0 c1) ≠ 0 ∧
      cell (List.replicate 16 (1 : Int)) (getIndex 4 0 c1)
        = cell (List.replicate 16 (1 : Int)) (getIndex 4 0 c2)) ∧
    (generateSubproblems 4 2 (List.replicate 16 (1 : Int)) 0).length = 1 ∧
    (generateSubproblems 4 2 (List.replicate 16 (1 : Int)) 3).length = 1 ∧
    ((SudokuSolver.init 4).loadBoard (List.replicate 16 (1 : Int))).solveSingleThread.numSolutions = 1 ∧
    (((SudokuSolver.init 4).loadBoard (List.replicate 16 (1 : Int))).solveParallel 2).numSolutions = 1 ∧
    (((SudokuSolver.init 4).loadBoard (List.replicate 16 (1 : Int))).solveParallelOptimized 2 0).numSolutions = 1 ∧
    (((SudokuSolver.init 4).loadBoard (List.replicate 16 (1 : Int))).solveParallelOptimized 2 3).numSolutions = 1 := by
  refine ⟨⟨0, 1, by decide, by decide, by decide, by decide, by decide⟩,
    by decide, by decide, by decide, by decide, by decide, by decide⟩

/-! ## The empty-cell scan -/

theorem nextEmptyFrom_ge (board : List Int) (fuel pos : Nat) :
    pos ≤ nextEmptyFrom board fuel pos := by
  induction fuel generalizing pos with
  | zero => simp [nextEmptyFrom]
  | succ fuel ih =>
    simp only [nextEmptyFrom]
    by_cases h : cell board pos != 0
    · simp only [h, if_true]
      exact le_trans (Nat.le_succ pos) (ih (pos + 1))
    · simp [h]

theorem nextEmptyFrom_le (board : List Int) (fuel pos : Nat) :
    nextEmptyFrom board fuel pos ≤ pos + fuel := by
  induction fuel generalizing pos with
  | zero => simp [nextEmptyFrom]
  | succ fuel ih =>
    simp only [nextEmptyFrom]
    by_cases h : cell board pos != 0
    · simp only [h, if_true]
      calc nextEmptyFrom board fuel (pos + 1) ≤ pos + 1 + fuel := ih (pos + 1)
        _ = pos + (fuel + 1) := by omega
    · simp only [h, Bool.false_eq_true, if_false]
      omega

theorem nextEmptyFrom_filled (board : List Int) (fuel pos : Nat) :
    ∀ i, pos ≤ i → i < nextEmptyFrom board fuel pos → cell board i ≠ 0 := by
  induction fuel generalizing pos with
  | zero =>
    intro i h1 h2
    simp [nextEmptyFrom] at h2
    omega
  | succ fuel ih =>
    intro i h1 h2
    simp only [nextEmptyFrom] at h2
    by_cases h : cell board pos != 0
    · simp only [h, if_true] at h2
      rcases Nat.eq_or_lt_of_le h1 with rfl | hlt
      · simpa using h
      · exact ih (pos + 1) i hlt h2
    · simp only [h, Bool.false_eq_true, if_false] at h2
      omega

theorem nextEmptyFrom_stop (board : List Int) (fuel pos : Nat)
    (h : nextEmptyFrom board fuel pos < pos + fuel) :
    cell board (nextEmptyFrom board fuel pos) = 0 := by
  induction fuel generalizing pos with
  | zero =>
    simp only [nextEmptyFrom] at h
    omega
  | succ fuel ih =>
    simp only [nextEmptyFrom] at h ⊢
    by_cases hc : cell board pos != 0
    · simp only [hc, if_true] at h ⊢
      exact ih (pos + 1) (by omega)
    · simp only [hc, Bool.false_eq_true, if_false] at h ⊢
      simpa using hc

theorem nextEmpty_ge (N : Nat) (board : List Int) (pos : Nat) :
    pos ≤ nextEmpty N board pos :=
  nextEmptyFrom_ge board (N * N - pos) pos

theorem nextEmpty_le (N : Nat) (board : List Int) (pos : Nat) (h : pos ≤ N * N) :
    nextEmpty N board pos ≤ N * N := by
  have := nextEmptyFrom_le board (N * N - pos) pos
  unfold nextEmpty
  omega

theorem nextEmpty_filled (N : Nat) (board : List Int) (pos : Nat) :
    ∀ i, pos ≤ i → i < nextEmpty N board pos → cell board i ≠ 0 :=
  nextEmptyFrom_filled board (N * N - pos) pos

theorem nextEmpty_stop (N : Nat) (board : List Int) (pos : Nat) (hpos : pos ≤ N * N)
    (h : nextEmpty N board pos < N * N) :
    cell board (nextEmpty N board pos) = 0 := by
  apply nextEmptyFrom_stop board (N * N - pos) pos
  unfold nextEmpty at h
  omega

/-! ## Decomposition of the pure reference count `solveFromStateCount` -/

theorem isValidWithBoard_eq_isValid (N blockSize : Nat) (board : List Int)
    (row col : Nat) (value : Int) :
    isValidWithBoard N blockSize board row col value
      = isValid N blockSize board row col value := rfl

theorem solveFromStateCount_complete (N blockSize : Nat) (board : List Int) :
    solveFromStateCount N blockSize board (N * N) = 1 := by
  have h : N * N + 1 - N * N = 1 := by omega
  rw [solveFromStateCount, h]
  simp [solveFromState]

theorem solveFromStateCount_skip (N blockSize : Nat) (board : List Int) (pos : Nat)
    (hpos : pos < N * N) (hcell : cell board pos ≠ 0) :
    solveFromStateCount N blockSize board pos
      = solveFromStateCount N blockSize board (pos + 1) := by
  have h : N * N + 1 - pos = (N * N + 1 - (pos + 1)) + 1 := by omega
  rw [solveFromStateCount, h]
  have hne : pos ≠ N * N := by omega
  have hbne : (cell board (getIndex N (pos / N) (pos % N)) != 0) = true := by
    rw [getIndex_div_mod]
    simpa using hcell
  simp only [solveFromState, hne, if_false, hbne, if_true]
  rfl

theorem solveFromStateCount_branch (N blockSize : Nat) (board : List Int) (pos : Nat)
    (hpos : pos < N * N) (hcell : cell board pos = 0) :
    solveFromStateCount N blockSize board pos
      = (((valueRange N).filter fun v =>
            isValid N blockSize board (pos / N) (pos % N) v).map fun v =>
          solveFromStateCount N blockSize (board.set pos v) (pos + 1)).sum := by
  have h : N * N + 1 - pos = (N * N + 1 - (pos + 1)) + 1 := by omega
  rw [solveFromStateCount, h]
  have hne : pos ≠ N * N := by omega
  have hbne : (cell board (getIndex N (pos / N) (pos % N)) != 0) = false := by
    rw [getIndex_div_mod]
    simpa using hcell
  simp only [solveFromState, hne, if_false, hbne, Bool.false_eq_true, if_false]
  rw [foldl_add_if]
  simp only [Nat.zero_add, isValidWithBoard_eq_isValid, getIndex_div_mod]
  rfl

theorem solveFromStateCount_walk (N blockSize : Nat) (board : List Int) (pos q : Nat)
    (hle : pos ≤ q) (hq : q ≤ N * N)
    (hfill : ∀ i, pos ≤ i → i < q → cell board i ≠ 0) :
    solveFromStateCount N blockSize board pos = solveFromStateCount N blockSize board q := by
  obtain ⟨d, rfl⟩ : ∃ d, q = pos + d := ⟨q - pos, by omega⟩
  clear hle
  induction d generalizing pos with
  | zero => rfl
  | succ d ih =>
    rw [solveFromStateCount_skip N blockSize board pos (by omega)
      (hfill pos (Nat.le_refl pos) (by omega))]
    have := ih (pos + 1) (by omega) (fun i h1 h2 => hfill i (by omega) (by omega))
    rw [this]
    congr 1
    omega

theorem solveFromStateCount_full (N blockSize : Nat) (board : List Int) (pos : Nat)
    (hpos : pos ≤ N * N) (hfill : ∀ i, pos ≤ i → i < N * N → cell board i ≠ 0) :
    solveFromStateCount N blockSize board pos = 1 := by
  rw [solveFromStateCount_walk N blockSize board pos (N * N) hpos (Nat.le_refl _) hfill]
  exact solveFromStateCount_complete N blockSize board

/-! ## The candidate loop: counting and state restoration -/

theorem backtrackLoop_eq {σ : Type} (can : σ → Int → Bool) (doPlace undoPlace : σ → Int → σ)
    (recurse : σ → Nat × σ) (st : σ) (values : List Int)
    (hrec : ∀ v ∈ values, can st v = true → (recurse (doPlace st v)).2 = doPlace st v)
    (hundo : ∀ v ∈ values, can st v = true → undoPlace (doPlace st v) v = st) :
    backtrackLoop can doPlace undoPlace recurse st values
      = (((values.filter (can st)).map fun v => (recurse (doPlace st v)).1).sum, st) := by
  induction values with
  | nil => simp [backtrackLoop]
  | cons v rest ih =>
    by_cases hcan : can st v = true
    · have h2 : undoPlace (recurse (doPlace st v)).2 v = st := by
        rw [hrec v (List.mem_cons_self v rest) hcan]
        exact hundo v (List.mem_cons_self v rest) hcan
      simp only [backtrackLoop, hcan, if_true, h2]
      rw [ih (fun w hw hc => hrec w (List.mem_cons_of_mem v hw) hc)
        (fun w hw hc => hundo w (List.mem_cons_of_mem v hw) hc)]
      simp [List.filter_cons, hcan]
    · simp only [backtrackLoop, hcan, if_false]
      rw [ih (fun w hw hc => hrec w (List.mem_cons_of_mem v hw) hc)
        (fun w hw hc => hundo w (List.mem_cons_of_mem v hw) hc)]
      simp [List.filter_cons, hcan]

theorem backtrackLoop_congr {σ : Type} (can : σ → Int → Bool)
    (doPlace undoPlace : σ → Int → σ) (rec1 rec2 : σ → Nat × σ)
    (h : ∀ x, rec1 x = rec2 x) (st : σ) (values : List Int) :
    backtrackLoop can doPlace undoPlace rec1 st values
      = backtrackLoop can doPlace undoPlace rec2 st values := by
  induction values generalizing st with
  | nil => rfl
  | cons v rest ih =>
    simp only [backtrackLoop, h]
    by_cases hcan : can st v = true
    · simp only [hcan, if_true, h, ih]
    · simp only [hcan, if_false, ih]

theorem set_getD_self (l : List Nat) (i : Nat) : l.set i (l.getD i 0) = l := by
  induction l generalizing i with
  | nil => rfl
  | cons a t ih =>
    cases i with
    | zero => simp [cell, List.getD]
    | succ n =>
      simp only [List.set]
      rw [show (a :: t).getD (n + 1) 0 = t.getD n 0 from rfl, ih n]

/-! ## Mask well-formedness and the set / unset inverse -/

theorem wf_init (N : Nat) : (BitMaskState.init N).wf := by
  refine ⟨?_, ?_, ?_⟩ <;>
  · intro m hm
    rw [List.eq_of_mem_replicate hm]
    norm_num

theorem guard_false_bounds {v : Int} (hg : (decide (v < 1) || decide (v > 31)) = false) :
    1 ≤ v ∧ v ≤ 31 ∧ 1 ≤ v.toNat ∧ v.toNat ≤ 31 := by
  simp only [Bool.or_eq_false_iff, decide_eq_false_iff_not] at hg
  have h1 : 1 ≤ v := by omega
  have h2 : v ≤ 31 := by omega
  refine ⟨h1, h2, ?_, ?_⟩ <;> omega

theorem mem_set_masks {l : List Nat} {i : Nat} {a x : Nat} (hx : x ∈ l.set i a)
    (hl : ∀ m ∈ l, m < 2 ^ 32) (ha : a < 2 ^ 32) : x < 2 ^ 32 := by
  rcases List.mem_or_eq_of_mem_set hx with h | rfl
  · exact hl x h
  · exact ha

theorem getD_lt {l : List Nat} (i : Nat) (hl : ∀ m ∈ l, m < 2 ^ 32) :
    l.getD i 0 < 2 ^ 32 := by
  by_cases h : i < l.length
  · rw [List.getD_eq_getElem l 0 h]
    exact hl _ (List.getElem_mem h)
  · rw [List.getD_eq_default l 0 (by omega)]
    norm_num

theorem wf_set (st : BitMaskState) (N blockSize row col : Nat) (v : Int) (hwf : st.wf) :
    (st.set N blockSize row col v).wf := by
  unfold BitMaskState.set
  by_cases hg : (decide (v < 1) || decide (v > 31)) = true
  · simpa [hg] using hwf
  · rw [Bool.not_eq_true] at hg
    obtain ⟨h1, h2, h3, h4⟩ := guard_false_bounds hg
    simp only [hg, Bool.false_eq_true, if_false]
    obtain ⟨hr, hc, hb⟩ := hwf
    refine ⟨?_, ?_, ?_⟩ <;>
      intro m hm <;>
      exact mem_set_masks hm (by assumption)
        (lor_shift_lt _ _ (getD_lt _ (by assumption)) (by omega))

theorem wf_unset (st : BitMaskState) (N blockSize row col : Nat) (v : Int) (hwf : st.wf) :
    (st.unset N blockSize row col v).wf := by
  unfold BitMaskState.unset
  by_cases hg : (decide (v < 1) || decide (v > 31)) = true
  · simpa [hg] using hwf
  · rw [Bool.not_eq_true] at hg
    simp only [hg, Bool.false_eq_true, if_false]
    obtain ⟨hr, hc, hb⟩ := hwf
    refine ⟨?_, ?_, ?_⟩ <;>
      intro m hm <;>
      exact mem_set_masks hm (by assumption)
        (land_lt _ _ (getD_lt _ (by assumption)))

theorem mask_set_unset {l : List Nat} {i : Nat} {v : Nat}
    (hl : ∀ m ∈ l, m < 2 ^ 32) (hv : v < 32)
    (hbit : (l.getD i 0 &&& 1 <<< v) = 0) :
    (l.set i (l.getD i 0 ||| 1 <<< v)).set i
        ((l.set i (l.getD i 0 ||| 1 <<< v)).getD i 0 &&& (mask32 ^^^ 1 <<< v)) = l := by
  by_cases hi : i < l.length
  · have hget : (l.set i (l.getD i 0 ||| 1 <<< v)).getD i 0 = l.getD i 0 ||| 1 <<< v := by
      rw [List.getD_eq_getElem?_getD, List.getElem?_set]
      simp [hi]
    rw [hget, List.set_set,
      lor_land_complement _ _ (getD_lt i hl) hv ((land_shift_eq_zero_iff _ _).mp hbit),
      set_getD_self]
  · have hlen : (l.set i (l.getD i 0 ||| 1 <<< v)).length = l.length := List.length_set l i _
    rw [List.set_eq_of_length_le (le_trans (le_of_eq hlen) (by omega)),
      List.set_eq_of_length_le (by omega)]

theorem set_unset_of_canPlace (st : BitMaskState) (N blockSize row col : Nat) (v : Int)
    (hwf : st.wf) (hcan : st.canPlace N blockSize row col v = true) :
    (st.set N blockSize row col v).unset N blockSize row col v = st := by
  unfold BitMaskState.canPlace at hcan
  by_cases hg : (decide (v < 1) || decide (v > 31)) = true
  · simp [hg] at hcan
  · rw [Bool.not_eq_true] at hg
    obtain ⟨h1, h2, h3, h4⟩ := guard_false_bounds hg
    simp only [hg, Bool.false_eq_true, if_false, Bool.and_eq_true, beq_iff_eq] at hcan
    obtain ⟨⟨hrow, hcol⟩, hblk⟩ := hcan
    obtain ⟨hr, hc, hb⟩ := hwf
    unfold BitMaskState.set BitMaskState.unset
    simp only [hg, Bool.false_eq_true, if_false]
    congr 1 <;> exact mask_set_unset (by assumption) (by omega) (by assumption)

/-! ## Restoration: the engines fully unwind their mutations -/

theorem backtrackSingleThreadAux_restores (N blockSize fuel : Nat) :
    ∀ board pos, (backtrackSingleThreadAux N blockSize fuel board pos).2 = board := by
  induction fuel with
  | zero => intro board pos; rfl
  | succ fuel ih =>
    intro board pos
    by_cases hend : pos = N * N
    · simp [backtrackSingleThreadAux, hend]
    · simp only [backtrackSingleThreadAux, hend, if_false]
      by_cases hcell : cell board (getIndex N (pos / N) (pos % N)) != 0
      · simpa [hcell] using ih board (pos + 1)
      · simp only [hcell, Bool.false_eq_true, if_false]
        rw [backtrackLoop_eq _ _ _ _ board (valueRange N)
          (fun v hv hc => ih _ (pos + 1))
          (fun v hv hc => by
            rw [List.set_set]
            exact set_cell_zero board _ (by simpa using hcell))]

theorem backtrackWithBitmaskAux_restores (N blockSize fuel : Nat) :
    ∀ board st pos, st.wf →
      (backtrackWithBitmaskAux N blockSize fuel (board, st) pos).2 = (board, st) := by
  induction fuel with
  | zero => intro board st pos _; rfl
  | succ fuel ih =>
    intro board st pos hwf
    by_cases hend : pos = N * N
    · simp [backtrackWithBitmaskAux, hend]
    · simp only [backtrackWithBitmaskAux, hend, if_false]
      by_cases hcell : cell board (getIndex N (pos / N) (pos % N)) != 0
      · simpa [hcell] using ih board st (pos + 1) hwf
      · simp only [hcell, Bool.false_eq_true, if_false]
        rw [backtrackLoop_eq _ _ _ _ (board, st) (valueRange N)
          (fun v hv hc => ih _ _ (pos + 1)
            (wf_set st N blockSize (pos / N) (pos % N) v hwf))
          (fun v hv hc => by
            have hboard : ((board.set (getIndex N (pos / N) (pos % N)) v).set
                (getIndex N (pos / N) (pos % N)) 0) = board := by
              rw [List.set_set]
              exact set_cell_zero board _ (by simpa using hcell)
            have hstate := set_unset_of_canPlace st N blockSize (pos / N) (pos % N) v hwf hc
            simp only [Prod.mk.injEq]
            exact ⟨hboard, hstate⟩)]

/-- C7: the engines always fully unwind their transient mutations: after
`backtrackWithBitmask(board, state, pos)` returns, the board and all three
tracker masks equal their values at the moment of the call (for any state a
C++ `BitMaskState` can hold, i.e. any masks fitting `uint32_t`); likewise
`backtrackSingleThread` restores the solver's board, unconditionally. -/
theorem backtrack_restores (N blockSize : Nat) (board : List Int) (state : BitMaskState)
    (pos : Nat) (hwf : state.wf) :
    (backtrackWithBitmask N blockSize board state pos).2 = (board, state) ∧
    (backtrackSingleThread N blockSize board pos).2 = board :=
  ⟨backtrackWithBitmaskAux_restores N blockSize _ board state pos hwf,
    backtrackSingleThreadAux_restores N blockSize _ board pos⟩

/-- Witness for `backtrack_restores`: a concrete 4 x 4 search (two empty cells)
returns the exact board and tracker it started from. -/
theorem backtrack_restores_witness :
    (BitMaskState.init 4).wf ∧
    (backtrackWithBitmask 4 2 [1,2,3,4, 3,4,1,2, 2,1,4,3, 4,3,0,0]
      (BitMaskState.init 4) 0).2 = ([1,2,3,4, 3,4,1,2, 2,1,4,3, 4,3,0,0], BitMaskState.init 4) ∧
    (backtrackSingleThread 4 2 [1,2,3,4, 3,4,1,2, 2,1,4,3, 4,3,0,0] 0).2
      = [1,2,3,4, 3,4,1,2, 2,1,4,3, 4,3,0,0] := by
  have h := backtrack_restores 4 2 [1,2,3,4, 3,4,1,2, 2,1,4,3, 4,3,0,0]
    (BitMaskState.init 4) 0 (wf_init 4)
  exact ⟨wf_init 4, h.1, h.2⟩

/-! ## Fuel insensitivity: the recursion terminates within N*N + 1 - pos levels -/

theorem backtrackSingleThreadAux_fuel (N blockSize : Nat) :
    ∀ fuel board pos, pos ≤ N * N → N * N + 1 - pos ≤ fuel →
      backtrackSingleThreadAux N blockSize fuel board pos
        = backtrackSingleThread N blockSize board pos := by
  intro fuel
  induction fuel with
  | zero => intro board pos h1 h2; omega
  | succ fuel ih =>
    intro board pos h1 h2
    by_cases hend : pos = N * N
    · subst hend
      have hf : N * N + 1 - N * N = 1 := by omega
      rw [backtrackSingleThread, hf]
      simp [backtrackSingleThreadAux]
    · have hlt : pos < N * N := by omega
      have hf : N * N + 1 - pos = (N * N + 1 - (pos + 1)) + 1 := by omega
      rw [backtrackSingleThread, hf]
      simp only [backtrackSingleThreadAux, hend, if_false]
      by_cases hcell : cell board (getIndex N (pos / N) (pos % N)) != 0
      · simp only [hcell, if_true]
        rw [ih board (pos + 1) (by omega) (by omega)]
        rw [backtrackSingleThread]
      · simp only [hcell, Bool.false_eq_true, if_false]
        apply backtrackLoop_congr
        intro x
        rw [ih x (pos + 1) (by omega) (by omega)]
        rw [backtrackSingleThread]

theorem backtrackWithBitmaskAux_fuel (N blockSize : Nat) :
    ∀ fuel board st pos, pos ≤ N * N → N * N + 1 - pos ≤ fuel →
      backtrackWithBitmaskAux N blockSize fuel (board, st) pos
        = backtrackWithBitmask N blockSize board st pos := by
  intro fuel
  induction fuel with
  | zero => intro board st pos h1 h2; omega
  | succ fuel ih =>
    intro board st pos h1 h2
    by_cases hend : pos = N * N
    · subst hend
      have hf : N * N + 1 - N * N = 1 := by omega
      rw [backtrackWithBitmask, hf]
      simp [backtrackWithBitmaskAux]
    · have hlt : pos < N * N := by omega
      have hf : N * N + 1 - pos = (N * N + 1 - (pos + 1)) + 1 := by omega
      rw [backtrackWithBitmask, hf]
      simp only [backtrackWithBitmaskAux, hend, if_false]
      by_cases hcell : cell board (getIndex N (pos / N) (pos % N)) != 0
      · simp only [hcell, if_true]
        rw [ih board st (pos + 1) (by omega) (by omega)]
        rw [backtrackWithBitmask]
      · simp only [hcell, Bool.false_eq_true, if_false]
        apply backtrackLoop_congr
        intro x
        have := ih x.1 x.2 (pos + 1) (by omega) (by omega)
        rw [show ((x.1, x.2) : List Int × BitMaskState) = x from rfl] at this
        rw [this, backtrackWithBitmask]

/-- C8: the backtracking search terminates: for every board, tracker state and
starting position `pos ≤ N*N`, every fuel at least `N*N + 1 - pos` produces
the same result — the recursion is exhausted after at most `N*N + 1 - pos`
levels, because every call recurses only at `pos + 1` and the candidate loop
iterates over the finite list `1..N`.  Both engines are therefore total
functions of their inputs. -/
theorem backtrack_terminates (N blockSize : Nat) (board : List Int) (st : BitMaskState)
    (pos fuel : Nat) (hpos : pos ≤ N * N) (hfuel : N * N + 1 - pos ≤ fuel) :
    backtrackSingleThreadAux N blockSize fuel board pos
      = backtrackSingleThread N blockSize board pos ∧
    backtrackWithBitmaskAux N blockSize fuel (board, st) pos
      = backtrackWithBitmask N blockSize board st pos :=
  ⟨backtrackSingleThreadAux_fuel N blockSize fuel board pos hpos hfuel,
    backtrackWithBitmaskAux_fuel N blockSize fuel board st pos hpos hfuel⟩

/-- Witness for `backtrack_terminates`: a concrete 2 x 2 search run with far
more fuel than needed gives the same result as with exact fuel. -/
theorem backtrack_terminates_witness :
    (0 : Nat) ≤ 2 * 2 ∧ 2 * 2 + 1 - 0 ≤ 50 ∧
    backtrackSingleThreadAux 2 1 50 [0, 0, 0, 0] 0 = backtrackSingleThread 2 1 [0, 0, 0, 0] 0 ∧
    backtrackWithBitmaskAux 2 1 50 ([0, 0, 0, 0], BitMaskState.init 2) 0
      = backtrackWithBitmask 2 1 [0, 0, 0, 0] (BitMaskState.init 2) 0 := by
  have h := backtrack_terminates 2 1 [0, 0, 0, 0] (BitMaskState.init 2) 0 50
    (by decide) (by decide)
  exact ⟨by decide, by decide, h.1, h.2⟩

/-! ## The single-thread engine computes `solveFromState` -/

theorem backtrackSingleThreadAux_count (N blockSize : Nat) :
    ∀ fuel board pos, (backtrackSingleThreadAux N blockSize fuel board pos).1
      = solveFromState N blockSize fuel board pos := by
  intro fuel
  induction fuel with
  | zero => intro board pos; rfl
  | succ fuel ih =>
    intro board pos
    by_cases hend : pos = N * N
    · simp [backtrackSingleThreadAux, solveFromState, hend]
    · simp only [backtrackSingleThreadAux, solveFromState, hend, if_false]
      by_cases hcell : cell board (getIndex N (pos / N) (pos % N)) != 0
      · simp only [hcell, if_true]
        exact ih board (pos + 1)
      · simp only [hcell, Bool.false_eq_true, if_false]
        rw [backtrackLoop_eq _ _ _ _ board (valueRange N)
          (fun v hv hc => backtrackSingleThreadAux_restores N blockSize fuel _ (pos + 1))
          (fun v hv hc => by
            rw [List.set_set]
            exact set_cell_zero board _ (by simpa using hcell))]
        rw [foldl_add_if]
        simp only [Nat.zero_add, isValidWithBoard_eq_isValid]
        congr 1
        apply List.map_congr_left
        intro v hv
        exact ih _ (pos + 1)

theorem backtrackSingleThread_count (N blockSize : Nat) (board : List Int) (pos : Nat) :
    (backtrackSingleThread N blockSize board pos).1
      = solveFromStateCount N blockSize board pos :=
  backtrackSingleThreadAux_count N blockSize _ board pos

/-! ## Position-walk lemmas for the bitmask engine and the generator -/

theorem backtrackWithBitmask_complete (N blockSize : Nat) (board : List Int)
    (st : BitMaskState) : backtrackWithBitmask N blockSize board st (N * N) = (1, board, st) := by
  have hf : N * N + 1 - N * N = 1 := by omega
  rw [backtrackWithBitmask, hf]
  simp [backtrackWithBitmaskAux]

theorem backtrackWithBitmask_skip (N blockSize : Nat) (board : List Int) (st : BitMaskState)
    (pos : Nat) (hpos : pos < N * N) (hcell : cell board pos ≠ 0) :
    backtrackWithBitmask N blockSize board st pos
      = backtrackWithBitmask N blockSize board st (pos + 1) := by
  have hf : N * N + 1 - pos = (N * N + 1 - (pos + 1)) + 1 := by omega
  rw [backtrackWithBitmask, hf]
  have hne : pos ≠ N * N := by omega
  have hbne : (cell board (getIndex N (pos / N) (pos % N)) != 0) = true := by
    rw [getIndex_div_mod]
    simpa using hcell
  simp only [backtrackWithBitmaskAux, hne, if_false, hbne, if_true]
  rfl

theorem backtrackWithBitmask_walk_full (N blockSize : Nat) (board : List Int)
    (st : BitMaskState) (pos : Nat) (hpos : pos ≤ N * N)
    (hfill : ∀ i, pos ≤ i → i < N * N → cell board i ≠ 0) :
    backtrackWithBitmask N blockSize board st pos = (1, board, st) := by
  obtain ⟨d, hd⟩ : ∃ d, N * N = pos + d := ⟨N * N - pos, by omega⟩
  clear hpos
  induction d generalizing pos with
  | zero =>
    have : pos = N * N := by omega
    rw [this, backtrackWithBitmask_complete]
  | succ d ih =>
    rw [backtrackWithBitmask_skip N blockSize board st pos (by omega)
      (hfill pos (Nat.le_refl pos) (by omega))]
    exact ih (pos + 1) (fun i h1 h2 => hfill i (by omega) h2) (by omega)

theorem generateSubproblemsRecursive_full (N blockSize remaining : Nat) (current : Subproblem)
    (hsp : current.startPos ≤ N * N)
    (hfill : ∀ i, current.startPos ≤ i → i < N * N → cell current.board i ≠ 0) :
    generateSubproblemsRecursive N blockSize remaining current = [current] := by
  cases remaining with
  | zero => rfl
  | succ remaining =>
    simp only [generateSubproblemsRecursive]
    have hge : nextEmpty N current.board current.startPos ≥ N * N := by
      by_contra hlt
      push_neg at hlt
      exact hfill _ (nextEmpty_ge N current.board current.startPos)
        hlt (nextEmpty_stop N current.board current.startPos hsp hlt)
    simp [hge]

/-- C5: a fully filled board that satisfies the row / column / block uniqueness
constraints yields exactly `1` solution under every strategy (any thread count
`k ≥ 1`, any partition depth).  No candidate branching is performed: every
engine walks the filled positions to `N*N` without ever entering the
value loop, `solveParallel` takes its no-empty-cell short circuit, and the
generator emits the root itself as its only leaf. -/
theorem complete_board_one_solution (s : SudokuSolver) (k depth : Nat)
    (hfull : ∀ i, i < s.N * s.N → cell s.board i ≠ 0)
    (hvalid : noDuplicates s.N s.blockSize s.board) (hk : 1 ≤ k) :
    s.solveSingleThread.numSolutions = 1 ∧
    (s.solveParallel k).numSolutions = 1 ∧
    (s.solveParallelOptimized k depth).numSolutions = 1 := by
  refine ⟨?_, ?_, ?_⟩
  · show (backtrackSingleThread s.N s.blockSize s.board 0).1 = 1
    rw [backtrackSingleThread_count]
    exact solveFromStateCount_full s.N s.blockSize s.board 0 (Nat.zero_le _)
      (fun i _ h2 => hfull i h2)
  · unfold SudokuSolver.solveParallel
    have hge : nextEmpty s.N s.board 0 ≥ s.N * s.N := by
      by_contra hlt
      push_neg at hlt
      exact hfull _ hlt (nextEmpty_stop s.N s.board 0 (Nat.zero_le _) hlt)
    simp [hge]
  · unfold SudokuSolver.solveParallelOptimized generateSubproblems
    rw [generateSubproblemsRecursive_full s.N s.blockSize depth _ (Nat.zero_le _)
      (fun i _ h2 => hfull i h2)]
    simp only [List.isEmpty_cons, Bool.false_eq_true, if_false, List.map_cons, List.map_nil,
      List.sum_cons, List.sum_nil]
    show solveSubproblem s.N s.blockSize _ + 0 = 1
    unfold solveSubproblem
    rw [backtrackWithBitmask_walk_full s.N s.blockSize _ _ 0 (Nat.zero_le _)
      (fun i _ h2 => hfull i h2)]

set_option synthInstance.maxSize 2048 in
set_option maxHeartbeats 800000 in
/-- Witness for `complete_board_one_solution`: a concrete complete, valid
4 x 4 board reports one solution under all three strategies. -/
theorem complete_board_one_solution_witness :
    (∀ i, i < (4 : Nat) * 4 → cell [1,2,3,4, 3,4,1,2, 2,1,4,3, 4,3,2,1] i ≠ 0) ∧
    ((SudokuSolver.init 4).loadBoard
      [1,2,3,4, 3,4,1,2, 2,1,4,3, 4,3,2,1]).solveSingleThread.numSolutions = 1 ∧
    (((SudokuSolver.init 4).loadBoard
      [1,2,3,4, 3,4,1,2, 2,1,4,3, 4,3,2,1]).solveParallel 2).numSolutions = 1 ∧
    (((SudokuSolver.init 4).loadBoard
      [1,2,3,4, 3,4,1,2, 2,1,4,3, 4,3,2,1]).solveParallelOptimized 2 3).numSolutions = 1 := by
  have hfull : ∀ i, i < (4 : Nat) * 4 →
      cell [1,2,3,4, 3,4,1,2, 2,1,4,3, 4,3,2,1] i ≠ 0 := by decide
  have hvalid : noDuplicates 4 2 [1,2,3,4, 3,4,1,2, 2,1,4,3, 4,3,2,1] := by
    unfold noDuplicates
    refine ⟨?_, ?_, ?_⟩ <;> decide
  have h := complete_board_one_solution
    ((SudokuSolver.init 4).loadBoard [1,2,3,4, 3,4,1,2, 2,1,4,3, 4,3,2,1]) 2 3
    (by exact hfull) (by exact hvalid) (by decide)
  exact ⟨by exact hfull, h.1, h.2.1, h.2.2⟩

/-! ## Index arithmetic -/

theorem N_pos_of_lt (N pos : Nat) (h : pos < N * N) : 0 < N := by
  rcases Nat.eq_zero_or_pos N with rfl | h'
  · simp at h
  · exact h'

theorem pos_div_lt (N pos : Nat) (h : pos < N * N) : pos / N < N :=
  (Nat.div_lt_iff_lt_mul (N_pos_of_lt N pos h)).mpr h

theorem pos_mod_lt (N pos : Nat) (h : pos < N * N) : pos % N < N :=
  Nat.mod_lt pos (N_pos_of_lt N pos h)

theorem getIndex_div (N r c : Nat) (hc : c < N) : getIndex N r c / N = r := by
  unfold getIndex
  rw [Nat.add_comm, Nat.add_mul_div_right c r (by omega)]
  simp [Nat.div_eq_of_lt hc]

theorem getIndex_inj (N r c r' c' : Nat) (hc : c < N) (hc' : c' < N)
    (h : getIndex N r c = getIndex N r' c') : r = r' ∧ c = c' := by
  have hr : r = r' := by
    rw [← getIndex_div N r c hc, h, getIndex_div N r' c' hc']
  subst hr
  unfold getIndex at h
  omega

theorem div_mul_add_div (a d bs : Nat) (hbs : 0 < bs) (hd : d < bs) :
    (a / bs * bs + d) / bs = a / bs := by
  rw [Nat.add_comm, Nat.add_mul_div_right d (a / bs) hbs]
  simp [Nat.div_eq_of_lt hd]

theorem bs_pos (bs N : Nat) (hsq : bs * bs = N) (hN : 0 < N) : 0 < bs := by
  rcases Nat.eq_zero_or_pos bs with rfl | h
  · omega
  · exact h

theorem div_bs_lt (bs N a : Nat) (hsq : bs * bs = N) (ha : a < N) : a / bs < bs := by
  have hbs : 0 < bs := bs_pos bs N hsq (by omega)
  exact (Nat.div_lt_iff_lt_mul hbs).mpr (by omega)

theorem block_coord_lt (bs N a d : Nat) (hsq : bs * bs = N) (ha : a < N) (hd : d < bs) :
    a / bs * bs + d < N := by
  have hbs : 0 < bs := bs_pos bs N hsq (by omega)
  have h1 : a / bs < bs := div_bs_lt bs N a hsq ha
  calc a / bs * bs + d < a / bs * bs + bs := by omega
    _ = (a / bs + 1) * bs := by rw [Nat.succ_mul]
    _ ≤ bs * bs := Nat.mul_le_mul_right bs (by omega)
    _ = N := hsq

theorem blockIndex_lt (bs N r c : Nat) (hsq : bs * bs = N) (hr : r < N) (hc : c < N) :
    blockIndex bs r c < N := by
  have hbs : 0 < bs := bs_pos bs N hsq (by omega)
  have h2 : c / bs < bs := div_bs_lt bs N c hsq hc
  unfold blockIndex
  exact block_coord_lt bs N r (c / bs) hsq hr h2

theorem blockIndex_eq_iff (bs N pr pc r c : Nat) (hsq : bs * bs = N)
    (hpc : pc < N) (hc : c < N) :
    blockIndex bs pr pc = blockIndex bs r c ↔ pr / bs = r / bs ∧ pc / bs = c / bs := by
  have hbs : 0 < bs := bs_pos bs N hsq (by omega)
  have h2 : pc / bs < bs := div_bs_lt bs N pc hsq hpc
  have h4 : c / bs < bs := div_bs_lt bs N c hsq hc
  unfold blockIndex
  constructor
  · intro h
    have e1 : (pr / bs * bs + pc / bs) / bs = pr / bs := div_mul_add_div pr (pc / bs) bs hbs h2
    have e2 : (r / bs * bs + c / bs) / bs = r / bs := div_mul_add_div r (c / bs) bs hbs h4
    have hrr : pr / bs = r / bs := by rw [← e1, h, e2]
    constructor
    · exact hrr
    · rw [hrr] at h
      omega
  · rintro ⟨h1, h2⟩
    rw [h1, h2]

/-! ## Scan characterizations -/

theorem isInRow_iff (N : Nat) (board : List Int) (row : Nat) (w : Int) :
    isInRow N board row w = true
      ↔ ∃ col, col < N ∧ cell board (getIndex N row col) = w := by
  unfold isInRow
  rw [List.any_eq_true]
  constructor
  · rintro ⟨col, hcol, hc⟩
    exact ⟨col, List.mem_range.mp hcol, by simpa using hc⟩
  · rintro ⟨col, hcol, hc⟩
    exact ⟨col, List.mem_range.mpr hcol, by simpa using hc⟩

theorem isInCol_iff (N : Nat) (board : List Int) (col : Nat) (w : Int) :
    isInCol N board col w = true
      ↔ ∃ row, row < N ∧ cell board (getIndex N row col) = w := by
  unfold isInCol
  rw [List.any_eq_true]
  constructor
  · rintro ⟨row, hrow, hc⟩
    exact ⟨row, List.mem_range.mp hrow, by simpa using hc⟩
  · rintro ⟨row, hrow, hc⟩
    exact ⟨row, List.mem_range.mpr hrow, by simpa using hc⟩

theorem isInBlock_iff (N bs : Nat) (board : List Int) (row col : Nat) (w : Int) :
    isInBlock N bs board row col w = true
      ↔ ∃ dr, dr < bs ∧ ∃ dc, dc < bs ∧
          cell board (getIndex N (row / bs * bs + dr) (col / bs * bs + dc)) = w := by
  unfold isInBlock
  rw [List.any_eq_true]
  constructor
  · rintro ⟨dr, hdr, hinner⟩
    rw [List.any_eq_true] at hinner
    obtain ⟨dc, hdc, hc⟩ := hinner
    exact ⟨dr, List.mem_range.mp hdr, dc, List.mem_range.mp hdc, by simpa using hc⟩
  · rintro ⟨dr, hdr, dc, hdc, hc⟩
    refine ⟨dr, List.mem_range.mpr hdr, ?_⟩
    rw [List.any_eq_true]
    exact ⟨dc, List.mem_range.mpr hdc, by simpa using hc⟩

/-! ## Scans after setting one empty cell -/

theorem isInRow_set (N : Nat) (board : List Int) (pos : Nat) (v w : Int) (r : Nat)
    (hpos : pos < N * N) (hlen : board.length = N * N) (hzero : cell board pos = 0)
    (hw : w ≠ 0) :
    isInRow N (board.set pos v) r w
      = (isInRow N board r w || (decide (r = pos / N) && (v == w))) := by
  apply Bool.coe_iff_coe.mp
  rw [isInRow_iff]
  simp only [Bool.or_eq_true, Bool.and_eq_true, decide_eq_true_eq, beq_iff_eq, isInRow_iff]
  constructor
  · rintro ⟨col, hcol, hc⟩
    by_cases hidx : getIndex N r col = pos
    · rw [hidx, cell_set_eq board pos v (by omega)] at hc
      right
      refine ⟨?_, hc⟩
      rw [← hidx, getIndex_div N r col hcol]
    · rw [cell_set_ne board v (fun h => hidx h.symm)] at hc
      exact Or.inl ⟨col, hcol, hc⟩
  · rintro (⟨col, hcol, hc⟩ | ⟨hr, hv⟩)
    · have hidx : getIndex N r col ≠ pos := by
        intro h
        rw [h, hzero] at hc
        exact hw hc.symm
      refine ⟨col, hcol, ?_⟩
      rw [cell_set_ne board v (fun h => hidx h.symm)]
      exact hc
    · refine ⟨pos % N, pos_mod_lt N pos hpos, ?_⟩
      rw [hr, getIndex_div_mod, cell_set_eq board pos v (by omega)]
      exact hv

theorem isInCol_set (N : Nat) (board : List Int) (pos : Nat) (v w : Int) (c : Nat)
    (hpos : pos < N * N) (hlen : board.length = N * N) (hzero : cell board pos = 0)
    (hw : w ≠ 0) (hc : c < N) :
    isInCol N (board.set pos v) c w
      = (isInCol N board c w || (decide (c = pos % N) && (v == w))) := by
  apply Bool.coe_iff_coe.mp
  rw [isInCol_iff]
  simp only [Bool.or_eq_true, Bool.and_eq_true, decide_eq_true_eq, beq_iff_eq, isInCol_iff]
  constructor
  · rintro ⟨row, hrow, hcell⟩
    by_cases hidx : getIndex N row c = pos
    · rw [hidx, cell_set_eq board pos v (by omega)] at hcell
      right
      refine ⟨?_, hcell⟩
      have := getIndex_inj N row c (pos / N) (pos % N) hc (pos_mod_lt N pos hpos)
        (by rw [hidx, getIndex_div_mod])
      exact this.2
    · rw [cell_set_ne board v (fun h => hidx h.symm)] at hcell
      exact Or.inl ⟨row, hrow, hcell⟩
  · rintro (⟨row, hrow, hcell⟩ | ⟨hcc, hv⟩)
    · have hidx : getIndex N row c ≠ pos := by
        intro h
        rw [h, hzero] at hcell
        exact hw hcell.symm
      refine ⟨row, hrow, ?_⟩
      rw [cell_set_ne board v (fun h => hidx h.symm)]
      exact hcell
    · refine ⟨pos / N, pos_div_lt N pos hpos, ?_⟩
      rw [hcc, getIndex_div_mod, cell_set_eq board pos v (by omega)]
      exact hv

theorem isInBlock_set (N bs : Nat) (board : List Int) (pos : Nat) (v w : Int) (r c : Nat)
    (hsq : bs * bs = N) (hpos : pos < N * N) (hlen : board.length = N * N)
    (hzero : cell board pos = 0) (hw : w ≠ 0) (hr : r < N) (hc : c < N) :
    isInBlock N bs (board.set pos v) r c w
      = (isInBlock N bs board r c w ||
          (decide (blockIndex bs (pos / N) (pos % N) = blockIndex bs r c) && (v == w))) := by
  have hbs : 0 < bs := bs_pos bs N hsq (by omega)
  apply Bool.coe_iff_coe.mp
  rw [isInBlock_iff]
  simp only [Bool.or_eq_true, Bool.and_eq_true, decide_eq_true_eq, beq_iff_eq, isInBlock_iff]
  constructor
  · rintro ⟨dr, hdr, dc, hdc, hcell⟩
    by_cases hidx : getIndex N (r / bs * bs + dr) (c / bs * bs + dc) = pos
    · rw [hidx, cell_set_eq board pos v (by omega)] at hcell
      right
      refine ⟨?_, hcell⟩
      have hcb : c / bs * bs + dc < N := block_coord_lt bs N c dc hsq hc hdc
      have hinj := getIndex_inj N (r / bs * bs + dr) (c / bs * bs + dc)
        (pos / N) (pos % N) hcb (pos_mod_lt N pos hpos) (by rw [hidx, getIndex_div_mod])
      rw [blockIndex_eq_iff bs N (pos / N) (pos % N) r c hsq
        (pos_mod_lt N pos hpos) hc]
      constructor
      · rw [← hinj.1, div_mul_add_div r dr bs hbs hdr]
      · rw [← hinj.2, div_mul_add_div c dc bs hbs hdc]
    · rw [cell_set_ne board v (fun h => hidx h.symm)] at hcell
      exact Or.inl ⟨dr, hdr, dc, hdc, hcell⟩
  · rintro (⟨dr, hdr, dc, hdc, hcell⟩ | ⟨hbidx, hv⟩)
    · have hidx : getIndex N (r / bs * bs + dr) (c / bs * bs + dc) ≠ pos := by
        intro h
        rw [h, hzero] at hcell
        exact hw hcell.symm
      refine ⟨dr, hdr, dc, hdc, ?_⟩
      rw [cell_set_ne board v (fun h => hidx h.symm)]
      exact hcell
    · rw [blockIndex_eq_iff bs N (pos / N) (pos % N) r c hsq
        (pos_mod_lt N pos hpos) hc] at hbidx
      refine ⟨pos / N % bs, Nat.mod_lt _ hbs, pos % N % bs, Nat.mod_lt _ hbs, ?_⟩
      have er : r / bs * bs + pos / N % bs = pos / N := by
        rw [← hbidx.1, Nat.mul_comm]
        exact Nat.div_add_mod (pos / N) bs
      have ec : c / bs * bs + pos % N % bs = pos % N := by
        rw [← hbidx.2, Nat.mul_comm]
        exact Nat.div_add_mod (pos % N) bs
      rw [er, ec, getIndex_div_mod, cell_set_eq board pos v (by omega)]
      exact hv

/-! ## Tracker maintenance -/

theorem natGetD_set_eq (l : List Nat) (i : Nat) (a : Nat) (h : i < l.length) :
    (l.set i a).getD i 0 = a := by
  rw [List.getD_eq_getElem?_getD, List.getElem?_set]
  simp [h]

theorem natGetD_set_ne (l : List Nat) {i j : Nat} (a : Nat) (h : i ≠ j) :
    (l.set i a).getD j 0 = l.getD j 0 := by
  rw [List.getD_eq_getElem?_getD, List.getElem?_set]
  simp [h, ← List.getD_eq_getElem?_getD]

theorem set_components (st : BitMaskState) (N bs row col : Nat) (v : Int)
    (hguard : (decide (v < 1) || decide (v > 31)) = false) :
    (st.set N bs row col v).rowMask
        = st.rowMask.set row (st.rowMask.getD row 0 ||| 1 <<< v.toNat) ∧
    (st.set N bs row col v).colMask
        = st.colMask.set col (st.colMask.getD col 0 ||| 1 <<< v.toNat) ∧
    (st.set N bs row col v).blockMask
        = st.blockMask.set (blockIndex bs row col)
            (st.blockMask.getD (blockIndex bs row col) 0 ||| 1 <<< v.toNat) := by
  unfold BitMaskState.set
  simp [hguard]

theorem set_guard_noop (st : BitMaskState) (N bs row col : Nat) (v : Int)
    (hguard : (decide (v < 1) || decide (v > 31)) = true) :
    st.set N bs row col v = st := by
  unfold BitMaskState.set
  simp [hguard]

theorem decide_toNat_eq (v w : Int) (hv : 1 ≤ v) (hw : 1 ≤ w) :
    decide (v.toNat = w.toNat) = (v == w) := by
  rw [Bool.eq_iff_iff]
  simp only [decide_eq_true_eq, beq_iff_eq]
  omega

theorem trackerMatches_set (N bs : Nat) (board : List Int) (st : BitMaskState)
    (pos : Nat) (v : Int) (hsq : bs * bs = N) (hlen : board.length = N * N)
    (hpos : pos < N * N) (hzero : cell board pos = 0) (hv1 : 1 ≤ v) (hv31 : v ≤ 31)
    (hm : trackerMatches N bs board st) :
    trackerMatches N bs (board.set pos v) (st.set N bs (pos / N) (pos % N) v) := by
  obtain ⟨hrl, hcl, hbl, hchar⟩ := hm
  have hguard : (decide (v < 1) || decide (v > 31)) = false := by
    simp only [Bool.or_eq_false_iff, decide_eq_false_iff_not]
    omega
  obtain ⟨hrw, hcw, hbw⟩ := set_components st N bs (pos / N) (pos % N) v hguard
  unfold trackerMatches
  rw [hrw, hcw, hbw]
  refine ⟨by simp [hrl], by simp [hcl], by simp [hbl], ?_⟩
  intro w hw1 hw31
  obtain ⟨hcr, hcc, hcb⟩ := hchar w hw1 hw31
  have hwne : w ≠ 0 := by omega
  refine ⟨?_, ?_, ?_⟩
  · intro r hrN
    rw [isInRow_set N board pos v w r hpos hlen hzero hwne]
    by_cases hre : r = pos / N
    · subst hre
      rw [natGetD_set_eq _ _ _ (by rw [hrl]; exact pos_div_lt N pos hpos),
        testBit_lor_shift, hcr _ hrN, decide_toNat_eq v w hv1 hw1]
      simp
    · rw [natGetD_set_ne _ _ (fun h => hre h.symm), hcr r hrN]
      simp [hre]
  · intro c hcN
    rw [isInCol_set N board pos v w c hpos hlen hzero hwne hcN]
    by_cases hce : c = pos % N
    · subst hce
      rw [natGetD_set_eq _ _ _ (by rw [hcl]; exact pos_mod_lt N pos hpos),
        testBit_lor_shift, hcc _ hcN, decide_toNat_eq v w hv1 hw1]
      simp
    · rw [natGetD_set_ne _ _ (fun h => hce h.symm), hcc c hcN]
      simp [hce]
  · intro r c hrN hcN
    rw [isInBlock_set N bs board pos v w r c hsq hpos hlen hzero hwne hrN hcN]
    by_cases hbe : blockIndex bs (pos / N) (pos % N) = blockIndex bs r c
    · rw [hbe]
      rw [natGetD_set_eq _ _ _
        (by rw [hbl]; exact blockIndex_lt bs N r c hsq hrN hcN),
        testBit_lor_shift, hcb r c hrN hcN, decide_toNat_eq v w hv1 hw1]
      simp [hbe]
    · rw [natGetD_set_ne _ _ hbe, hcb r c hrN hcN]
      simp [hbe]

theorem canPlace_eq_isValid (N bs : Nat) (board : List Int) (st : BitMaskState)
    (row col : Nat) (v : Int) (hm : trackerMatches N bs board st)
    (hrow : row < N) (hcol : col < N) (hv1 : 1 ≤ v) (hvN : v ≤ N) (hN31 : N ≤ 31) :
    st.canPlace N bs row col v = isValid N bs board row col v := by
  obtain ⟨hrl, hcl, hbl, hchar⟩ := hm
  have hv31 : v ≤ 31 := by omega
  have hguard : (decide (v < 1) || decide (v > 31)) = false := by
    simp only [Bool.or_eq_false_iff, decide_eq_false_iff_not]
    omega
  obtain ⟨hcr, hcc, hcb⟩ := hchar v hv1 hv31
  unfold BitMaskState.canPlace isValid
  simp only [hguard, Bool.false_eq_true, if_false]
  have er : (st.rowMask.getD row 0 &&& 1 <<< v.toNat == 0)
      = !isInRow N board row v := by
    rw [Bool.eq_iff_iff]
    simp only [beq_iff_eq, land_shift_eq_zero_iff, Bool.not_eq_true']
    rw [hcr row hrow]
  have ec : (st.colMask.getD col 0 &&& 1 <<< v.toNat == 0)
      = !isInCol N board col v := by
    rw [Bool.eq_iff_iff]
    simp only [beq_iff_eq, land_shift_eq_zero_iff, Bool.not_eq_true']
    rw [hcc col hcol]
  have eb : (st.blockMask.getD (blockIndex bs row col) 0 &&& 1 <<< v.toNat == 0)
      = !isInBlock N bs board row col v := by
    rw [Bool.eq_iff_iff]
    simp only [beq_iff_eq, land_shift_eq_zero_iff, Bool.not_eq_true']
    rw [hcb row col hrow hcol]
  rw [er, ec, eb]

/-! ## The initial tracker is the exact image of the board -/

/-- One step of the tracker-initialisation double loop
(sudoku_solver.cpp:438-445), applied to the cell `rc`. -/
def applyCell (N blockSize : Nat) (board : List Int) (st : BitMaskState)
    (rc : Nat × Nat) : BitMaskState :=
  if cell board (getIndex N rc.1 rc.2) != 0 then
    st.set N blockSize rc.1 rc.2 (cell board (getIndex N rc.1 rc.2))
  else st

/-- All cells `(row, col)` with `row, col < N`, in the order the double loop
visits them. -/
def allCells (N : Nat) : List (Nat × Nat) :=
  (List.range N).flatMap fun row => (List.range N).map fun col => (row, col)

theorem mem_allCells {N : Nat} {rc : Nat × Nat} :
    rc ∈ allCells N ↔ rc.1 < N ∧ rc.2 < N := by
  unfold allCells
  rw [List.mem_flatMap]
  constructor
  · rintro ⟨row, hrow, hmem⟩
    rw [List.mem_map] at hmem
    obtain ⟨col, hcol, rfl⟩ := hmem
    exact ⟨List.mem_range.mp hrow, List.mem_range.mp hcol⟩
  · rintro ⟨h1, h2⟩
    exact ⟨rc.1, List.mem_range.mpr h1,
      List.mem_map.mpr ⟨rc.2, List.mem_range.mpr h2, rfl⟩⟩

theorem foldl_flatMap_eq {α β σ : Type} (g : α → List β) (f : σ → β → σ)
    (l : List α) (init : σ) :
    (l.flatMap g).foldl f init = l.foldl (fun st a => (g a).foldl f st) init := by
  induction l generalizing init with
  | nil => rfl
  | cons a t ih => simp [List.flatMap_cons, List.foldl_append, ih]

theorem inner_foldl_eq (N bs : Nat) (board : List Int) (row : Nat) :
    ∀ (cols : List Nat) (st : BitMaskState),
      cols.foldl
        (fun st col =>
          let value := cell board (getIndex N row col)
          if value != 0 then st.set N bs row col value else st) st
        = (cols.map fun col => (row, col)).foldl (applyCell N bs board) st := by
  intro cols
  induction cols with
  | nil => intro st; rfl
  | cons c t ih =>
    intro st
    simp only [List.foldl_cons, List.map_cons]
    rw [ih]
    rfl

theorem initialTracker_eq_flat (N bs : Nat) (board : List Int) :
    initialTracker N bs board
      = (allCells N).foldl (applyCell N bs board) (BitMaskState.init N) := by
  unfold initialTracker allCells
  rw [foldl_flatMap_eq]
  congr 1
  funext st row
  exact inner_foldl_eq N bs board row (List.range N) st

theorem applyCell_wf (N bs : Nat) (board : List Int) (st : BitMaskState)
    (rc : Nat × Nat) (hwf : st.wf) : (applyCell N bs board st rc).wf := by
  unfold applyCell
  by_cases h : cell board (getIndex N rc.1 rc.2) != 0
  · simp only [h, if_true]
    exact wf_set _ _ _ _ _ _ hwf
  · simp only [h, Bool.false_eq_true, if_false]
    exact hwf

theorem foldl_applyCell_wf (N bs : Nat) (board : List Int) :
    ∀ (ps : List (Nat × Nat)) (st : BitMaskState), st.wf →
      (ps.foldl (applyCell N bs board) st).wf := by
  intro ps
  induction ps with
  | nil => intro st h; exact h
  | cons rc t ih =>
    intro st h
    exact ih _ (applyCell_wf N bs board st rc h)

theorem initialTracker_wf (N bs : Nat) (board : List Int) :
    (initialTracker N bs board).wf := by
  rw [initialTracker_eq_flat]
  exact foldl_applyCell_wf N bs board (allCells N) (BitMaskState.init N) (wf_init N)

/-- Characterization of the tracker produced by folding `applyCell` over the
cell list `ps`: each mask bit records exactly the occurrences among the
processed cells. -/
def foldChar (N bs : Nat) (board : List Int) (ps : List (Nat × Nat))
    (st : BitMaskState) : Prop :=
  st.rowMask.length = N ∧ st.colMask.length = N ∧ st.blockMask.length = N ∧
  ∀ w : Int, 1 ≤ w → w ≤ 31 →
    (∀ r, r < N → (st.rowMask.getD r 0).testBit w.toNat
      = ps.any fun rc => (rc.1 == r) && (cell board (getIndex N rc.1 rc.2) == w)) ∧
    (∀ c, c < N → (st.colMask.getD c 0).testBit w.toNat
      = ps.any fun rc => (rc.2 == c) && (cell board (getIndex N rc.1 rc.2) == w)) ∧
    (∀ r c, r < N → c < N →
      (st.blockMask.getD (blockIndex bs r c) 0).testBit w.toNat
        = ps.any fun rc => (blockIndex bs rc.1 rc.2 == blockIndex bs r c) &&
            (cell board (getIndex N rc.1 rc.2) == w))

theorem foldChar_nil (N bs : Nat) (board : List Int) :
    foldChar N bs board [] (BitMaskState.init N) := by
  unfold foldChar BitMaskState.init
  refine ⟨by simp, by simp, by simp, ?_⟩
  intro w hw1 hw31
  have hz : ∀ i, (List.replicate N (0 : Nat)).getD i 0 = 0 := by
    intro i
    by_cases h : i < N
    · rw [List.getD_eq_getElem _ _ (by simpa using h)]
      simp
    · rw [List.getD_eq_default _ _ (by simpa using h)]
  refine ⟨?_, ?_, ?_⟩ <;> intros <;> simp [hz, Nat.zero_testBit]

theorem applyCell_char (N bs : Nat) (board : List Int) (hsq : bs * bs = N)
    (ps : List (Nat × Nat)) (st : BitMaskState) (rc : Nat × Nat)
    (h1 : rc.1 < N) (h2 : rc.2 < N) (hch : foldChar N bs board ps st) :
    foldChar N bs board (ps ++ [rc]) (applyCell N bs board st rc) := by
  obtain ⟨hrl, hcl, hbl, hchar⟩ := hch
  set u := cell board (getIndex N rc.1 rc.2) with hu
  have hany : ∀ (p : Nat × Nat → Bool), (ps ++ [rc]).any p = (ps.any p || p rc) := by
    intro p
    rw [List.any_append]
    simp
  by_cases hu0 : u != 0
  · by_cases hguard : (decide (u < 1) || decide (u > 31)) = true
    · -- out-of-range value: set is a no-op and the cell can never equal a
      -- representable symbol
      have happ : applyCell N bs board st rc = st := by
        unfold applyCell
        rw [← hu]
        simp only [hu0, if_true]
        exact set_guard_noop st N bs rc.1 rc.2 u hguard
      rw [happ]
      refine ⟨hrl, hcl, hbl, ?_⟩
      intro w hw1 hw31
      obtain ⟨hcr, hcc, hcb⟩ := hchar w hw1 hw31
      have hne : (u == w) = false := by
        simp only [Bool.or_eq_true, decide_eq_true_eq] at hguard
        simp only [beq_eq_false_iff_ne, ne_eq]
        omega
      refine ⟨?_, ?_, ?_⟩
      · intro r hr
        rw [hcr r hr, hany]
        simp [← hu, hne]
      · intro c hc
        rw [hcc c hc, hany]
        simp [← hu, hne]
      · intro r c hr hc
        rw [hcb r c hr hc, hany]
        simp [← hu, hne]
    · -- representable value: all three masks gain bit u
      rw [Bool.not_eq_true] at hguard
      have hu1 : 1 ≤ u ∧ u ≤ 31 := by
        simp only [Bool.or_eq_false_iff, decide_eq_false_iff_not] at hguard
        omega
      have happ : applyCell N bs board st rc = st.set N bs rc.1 rc.2 u := by
        unfold applyCell
        rw [← hu]
        simp only [hu0, if_true]
      rw [happ]
      obtain ⟨hrw, hcw, hbw⟩ := set_components st N bs rc.1 rc.2 u hguard
      unfold foldChar
      rw [hrw, hcw, hbw]
      refine ⟨by simp [hrl], by simp [hcl], by simp [hbl], ?_⟩
      intro w hw1 hw31
      obtain ⟨hcr, hcc, hcb⟩ := hchar w hw1 hw31
      refine ⟨?_, ?_, ?_⟩
      · intro r hr
        rw [hany]
        by_cases hre : rc.1 = r
        · rw [← hre]
          rw [natGetD_set_eq _ _ _ (by rw [hrl]; exact h1), testBit_lor_shift,
            hcr rc.1 (hre ▸ hr), decide_toNat_eq u w hu1.1 hw1]
          simp [← hu]
        · rw [natGetD_set_ne _ _ (fun h => hre h), hcr r hr]
          simp [← hu, hre]
      · intro c hc
        rw [hany]
        by_cases hce : rc.2 = c
        · rw [← hce]
          rw [natGetD_set_eq _ _ _ (by rw [hcl]; exact h2), testBit_lor_shift,
            hcc rc.2 (hce ▸ hc), decide_toNat_eq u w hu1.1 hw1]
          simp [← hu]
        · rw [natGetD_set_ne _ _ (fun h => hce h), hcc c hc]
          simp [← hu, hce]
      · intro r c hr hc
        rw [hany]
        by_cases hbe : blockIndex bs rc.1 rc.2 = blockIndex bs r c
        · rw [← hbe]
          rw [natGetD_set_eq _ _ _
            (by rw [hbl]; exact blockIndex_lt bs N rc.1 rc.2 hsq h1 h2),
            testBit_lor_shift, hbe, hcb r c hr hc, decide_toNat_eq u w hu1.1 hw1]
          simp [← hu, hbe]
        · rw [natGetD_set_ne _ _ hbe, hcb r c hr hc]
          simp [← hu, hbe]
  · -- empty cell: nothing recorded
    have happ : applyCell N bs board st rc = st := by
      unfold applyCell
      rw [← hu]
      simp only [hu0, Bool.false_eq_true, if_false]
    rw [happ]
    have hz : u = 0 := by simpa using hu0
    refine ⟨hrl, hcl, hbl, ?_⟩
    intro w hw1 hw31
    obtain ⟨hcr, hcc, hcb⟩ := hchar w hw1 hw31
    have hne : (u == w) = false := by
      simp only [beq_eq_false_iff_ne, ne_eq]
      omega
    refine ⟨?_, ?_, ?_⟩
    · intro r hr
      rw [hcr r hr, hany]
      simp [← hu, hne]
    · intro c hc
      rw [hcc c hc, hany]
      simp [← hu, hne]
    · intro r c hr hc
      rw [hcb r c hr hc, hany]
      simp [← hu, hne]

theorem foldl_applyCell_char (N bs : Nat) (board : List Int) (hsq : bs * bs = N) :
    ∀ ps : List (Nat × Nat), (∀ rc ∈ ps, rc.1 < N ∧ rc.2 < N) →
      foldChar N bs board ps (ps.foldl (applyCell N bs board) (BitMaskState.init N)) := by
  intro ps
  induction ps using List.reverseRecOn with
  | nil => intro _; exact foldChar_nil N bs board
  | append_singleton ps rc ih =>
    intro hmem
    rw [List.foldl_append]
    simp only [List.foldl_cons, List.foldl_nil]
    have hrc := hmem rc (by simp)
    exact applyCell_char N bs board hsq ps _ rc hrc.1 hrc.2
      (ih fun x hx => hmem x (by simp [hx]))

theorem any_allCells_row (N : Nat) (board : List Int) (r : Nat) (w : Int) (hr : r < N) :
    ((allCells N).any fun rc => (rc.1 == r) && (cell board (getIndex N rc.1 rc.2) == w))
      = isInRow N board r w := by
  apply Bool.coe_iff_coe.mp
  rw [List.any_eq_true, isInRow_iff]
  constructor
  · rintro ⟨rc, hmem, hp⟩
    simp only [Bool.and_eq_true, beq_iff_eq] at hp
    obtain ⟨hmem1, hmem2⟩ := mem_allCells.mp hmem
    exact ⟨rc.2, hmem2, by rw [← hp.1]; exact hp.2⟩
  · rintro ⟨col, hcol, hc⟩
    refine ⟨(r, col), mem_allCells.mpr ⟨hr, hcol⟩, ?_⟩
    simp [hc]

theorem any_allCells_col (N : Nat) (board : List Int) (c : Nat) (w : Int) (hc : c < N) :
    ((allCells N).any fun rc => (rc.2 == c) && (cell board (getIndex N rc.1 rc.2) == w))
      = isInCol N board c w := by
  apply Bool.coe_iff_coe.mp
  rw [List.any_eq_true, isInCol_iff]
  constructor
  · rintro ⟨rc, hmem, hp⟩
    simp only [Bool.and_eq_true, beq_iff_eq] at hp
    obtain ⟨hmem1, hmem2⟩ := mem_allCells.mp hmem
    exact ⟨rc.1, hmem1, by rw [← hp.1]; exact hp.2⟩
  · rintro ⟨row, hrow, hcell⟩
    refine ⟨(row, c), mem_allCells.mpr ⟨hrow, hc⟩, ?_⟩
    simp [hcell]

theorem any_allCells_block (N bs : Nat) (board : List Int) (r c : Nat) (w : Int)
    (hsq : bs * bs = N) (hr : r < N) (hc : c < N) :
    ((allCells N).any fun rc =>
        (blockIndex bs rc.1 rc.2 == blockIndex bs r c) &&
          (cell board (getIndex N rc.1 rc.2) == w))
      = isInBlock N bs board r c w := by
  have hbs : 0 < bs := bs_pos bs N hsq (by omega)
  apply Bool.coe_iff_coe.mp
  rw [List.any_eq_true, isInBlock_iff]
  constructor
  · rintro ⟨rc, hmem, hp⟩
    simp only [Bool.and_eq_true, beq_iff_eq] at hp
    obtain ⟨hm1, hm2⟩ := mem_allCells.mp hmem
    obtain ⟨hdiv1, hdiv2⟩ := (blockIndex_eq_iff bs N rc.1 rc.2 r c hsq hm2 hc).mp hp.1
    refine ⟨rc.1 % bs, Nat.mod_lt _ hbs, rc.2 % bs, Nat.mod_lt _ hbs, ?_⟩
    have er : r / bs * bs + rc.1 % bs = rc.1 := by
      rw [← hdiv1, Nat.mul_comm]
      exact Nat.div_add_mod rc.1 bs
    have ec : c / bs * bs + rc.2 % bs = rc.2 := by
      rw [← hdiv2, Nat.mul_comm]
      exact Nat.div_add_mod rc.2 bs
    rw [er, ec]
    exact hp.2
  · rintro ⟨dr, hdr, dc, hdc, hcell⟩
    refine ⟨(r / bs * bs + dr, c / bs * bs + dc),
      mem_allCells.mpr ⟨block_coord_lt bs N r dr hsq hr hdr,
        block_coord_lt bs N c dc hsq hc hdc⟩, ?_⟩
    simp only [Bool.and_eq_true, beq_iff_eq]
    constructor
    · unfold blockIndex
      rw [div_mul_add_div r dr bs hbs hdr, div_mul_add_div c dc bs hbs hdc]
    · exact hcell

theorem trackerMatches_initialTracker (N bs : Nat) (board : List Int)
    (hsq : bs * bs = N) :
    trackerMatches N bs board (initialTracker N bs board) := by
  rw [initialTracker_eq_flat]
  have hch := foldl_applyCell_char N bs board hsq (allCells N)
    (fun rc hrc => mem_allCells.mp hrc)
  obtain ⟨hrl, hcl, hbl, hchar⟩ := hch
  refine ⟨hrl, hcl, hbl, ?_⟩
  intro w hw1 hw31
  obtain ⟨hcr, hcc, hcb⟩ := hchar w hw1 hw31
  refine ⟨?_, ?_, ?_⟩
  · intro r hr
    rw [hcr r hr, any_allCells_row N board r w hr]
  · intro c hc
    rw [hcc c hc, any_allCells_col N board c w hc]
  · intro r c hr hc
    rw [hcb r c hr hc, any_allCells_block N bs board r c w hsq hr hc]

/-- C4: `generateSubproblems` at `partitionDepth = 0` produces exactly one
Subproblem: board and cursor are the inputs unchanged (cursor `0`), and its
tracker is the exact occupancy image of that board (bit `v` of a
row / column / block mask is set precisely when symbol `v` occurs there). -/
theorem depth_zero_identity (N bs : Nat) (board : List Int) (hsq : bs * bs = N) :
    generateSubproblems N bs board 0
      = [{ board := board, state := initialTracker N bs board, startPos := 0 }] ∧
    trackerMatches N bs board (initialTracker N bs board) :=
  ⟨rfl, trackerMatches_initialTracker N bs board hsq⟩

/-- Witness for `depth_zero_identity` at a concrete 4 x 4 board: one
subproblem, with the stated board, tracker and cursor. -/
theorem depth_zero_identity_witness :
    (2 : Nat) * 2 = 4 ∧
    generateSubproblems 4 2 [1,0,0,0, 0,0,1,2, 0,3,0,0, 0,0,0,0] 0
      = [{ board := [1,0,0,0, 0,0,1,2, 0,3,0,0, 0,0,0,0]
           state := initialTracker 4 2 [1,0,0,0, 0,0,1,2, 0,3,0,0, 0,0,0,0]
           startPos := 0 }] ∧
    trackerMatches 4 2 [1,0,0,0, 0,0,1,2, 0,3,0,0, 0,0,0,0]
      (initialTracker 4 2 [1,0,0,0, 0,0,1,2, 0,3,0,0, 0,0,0,0]) := by
  have h := depth_zero_identity 4 2 [1,0,0,0, 0,0,1,2, 0,3,0,0, 0,0,0,0] (by decide)
  exact ⟨by decide, h.1, h.2⟩

/-! ## The bitmask engine computes `solveFromState` on image trackers -/

theorem backtrackWithBitmaskAux_count (N bs : Nat) (hsq : bs * bs = N) (hN31 : N ≤ 31) :
    ∀ fuel (board : List Int) (st : BitMaskState) (pos : Nat),
      board.length = N * N → pos ≤ N * N →
      trackerMatches N bs board st → st.wf →
      (backtrackWithBitmaskAux N bs fuel (board, st) pos).1
        = solveFromState N bs fuel board pos := by
  intro fuel
  induction fuel with
  | zero => intro board st pos _ _ _ _; rfl
  | succ fuel ih =>
    intro board st pos hlen hpos hm hwf
    by_cases hend : pos = N * N
    · simp [backtrackWithBitmaskAux, solveFromState, hend]
    · have hlt : pos < N * N := by omega
      simp only [backtrackWithBitmaskAux, solveFromState, hend, if_false]
      by_cases hcell : cell board (getIndex N (pos / N) (pos % N)) != 0
      · simp only [hcell, if_true]
        exact ih board st (pos + 1) hlen (by omega) hm hwf
      · simp only [hcell, Bool.false_eq_true, if_false]
        have hzero : cell board pos = 0 := by
          have := hcell
          rw [getIndex_div_mod] at this
          simpa using this
        rw [backtrackLoop_eq _ _ _ _ (board, st) (valueRange N)
          (fun v hv hc => backtrackWithBitmaskAux_restores N bs fuel _ _ (pos + 1)
            (wf_set st N bs (pos / N) (pos % N) v hwf))
          (fun v hv hc => by
            have hboard : ((board.set (getIndex N (pos / N) (pos % N)) v).set
                (getIndex N (pos / N) (pos % N)) 0) = board := by
              rw [List.set_set]
              exact set_cell_zero board _ (by simpa using hcell)
            simp only [Prod.mk.injEq]
            exact ⟨hboard, set_unset_of_canPlace st N bs (pos / N) (pos % N) v hwf hc⟩)]
        rw [foldl_add_if]
        simp only [Nat.zero_add, isValidWithBoard_eq_isValid]
        rw [List.filter_congr (fun v hv =>
          canPlace_eq_isValid N bs board st (pos / N) (pos % N) v hm
            (pos_div_lt N pos hlt) (pos_mod_lt N pos hlt)
            (mem_valueRange.mp hv).1 (mem_valueRange.mp hv).2 hN31)]
        congr 1
        apply List.map_congr_left
        intro v hv
        have hv' := mem_valueRange.mp (List.mem_of_mem_filter hv)
        rw [getIndex_div_mod]
        exact ih (board.set pos v) (st.set N bs (pos / N) (pos % N) v) (pos + 1)
          (by rw [List.length_set]; exact hlen) (by omega)
          (trackerMatches_set N bs board st pos v hsq hlen hlt hzero hv'.1
            (by omega) hm)
          (wf_set st N bs (pos / N) (pos % N) v hwf)

/-- Invariants carried by every subproblem the generator produces. -/
def subInv (N bs : Nat) (sp : Subproblem) : Prop :=
  sp.board.length = N * N ∧ sp.startPos ≤ N * N ∧
    trackerMatches N bs sp.board sp.state ∧ sp.state.wf

theorem solveSubproblem_eq (N bs : Nat) (hsq : bs * bs = N) (hN31 : N ≤ 31)
    (sp : Subproblem) (hinv : subInv N bs sp) :
    solveSubproblem N bs sp = solveFromStateCount N bs sp.board sp.startPos := by
  obtain ⟨hlen, hsp, hm, hwf⟩ := hinv
  unfold solveSubproblem backtrackWithBitmask solveFromStateCount
  exact backtrackWithBitmaskAux_count N bs hsq hN31 _ sp.board sp.state sp.startPos
    hlen hsp hm hwf

/-! ## The generator partitions the count -/

theorem sum_map_flatMap {α β : Type} (g : α → List β) (h : β → Nat) (l : List α) :
    ((l.flatMap g).map h).sum = (l.map fun a => ((g a).map h).sum).sum := by
  induction l with
  | nil => rfl
  | cons a t ih => simp [List.flatMap_cons, List.map_append, List.sum_append, ih]

theorem generateSubproblemsRecursive_inv (N bs : Nat) (hsq : bs * bs = N)
    (hN31 : N ≤ 31) :
    ∀ remaining (current : Subproblem), subInv N bs current →
      ∀ sp ∈ generateSubproblemsRecursive N bs remaining current, subInv N bs sp := by
  intro remaining
  induction remaining with
  | zero =>
    intro current hinv sp hsp
    simp only [generateSubproblemsRecursive, List.mem_singleton] at hsp
    exact hsp ▸ hinv
  | succ remaining ih =>
    intro current hinv sp hsp
    obtain ⟨hlen, hspos, hm, hwf⟩ := hinv
    simp only [generateSubproblemsRecursive] at hsp
    by_cases hge : nextEmpty N current.board current.startPos ≥ N * N
    · simp only [hge, if_true, List.mem_singleton] at hsp
      exact hsp ▸ ⟨hlen, hspos, hm, hwf⟩
    · simp only [hge, if_false] at hsp
      push_neg at hge
      have hzero : cell current.board (nextEmpty N current.board current.startPos) = 0 :=
        nextEmpty_stop N current.board current.startPos hspos hge
      rw [foldl_append_if] at hsp
      simp only [List.nil_append, List.mem_flatMap] at hsp
      obtain ⟨v, hvmem, hsp2⟩ := hsp
      have hv := mem_valueRange.mp (List.mem_of_mem_filter hvmem)
      refine ih _ ?_ sp hsp2
      refine ⟨by rw [List.length_set]; exact hlen,
        by show nextEmpty N current.board current.startPos + 1 ≤ N * N; omega, ?_, ?_⟩
      · exact trackerMatches_set N bs current.board current.state _ v hsq hlen hge
          hzero hv.1 (by omega) hm
      · exact wf_set current.state N bs _ _ v hwf

theorem generateSubproblemsRecursive_sum (N bs : Nat) (hsq : bs * bs = N)
    (hN31 : N ≤ 31) :
    ∀ remaining (current : Subproblem), subInv N bs current →
      ((generateSubproblemsRecursive N bs remaining current).map fun sp =>
          solveFromStateCount N bs sp.board sp.startPos).sum
        = solveFromStateCount N bs current.board current.startPos := by
  intro remaining
  induction remaining with
  | zero =>
    intro current hinv
    simp [generateSubproblemsRecursive]
  | succ remaining ih =>
    intro current hinv
    obtain ⟨hlen, hspos, hm, hwf⟩ := hinv
    simp only [generateSubproblemsRecursive]
    by_cases hge : nextEmpty N current.board current.startPos ≥ N * N
    · simp [hge]
    · simp only [hge, if_false]
      push_neg at hge
      have hzero : cell current.board (nextEmpty N current.board current.startPos) = 0 :=
        nextEmpty_stop N current.board current.startPos hspos hge
      rw [foldl_append_if, List.nil_append]
      rw [List.filter_congr (fun v hv =>
        canPlace_eq_isValid N bs current.board current.state _ _ v hm
          (pos_div_lt N _ hge) (pos_mod_lt N _ hge)
          (mem_valueRange.mp hv).1 (mem_valueRange.mp hv).2 hN31)]
      rw [sum_map_flatMap]
      have hstep : ∀ v ∈ (valueRange N).filter (fun v =>
          isValid N bs current.board (nextEmpty N current.board current.startPos / N)
            (nextEmpty N current.board current.startPos % N) v),
          ((generateSubproblemsRecursive N bs remaining
            { board := current.board.set (nextEmpty N current.board current.startPos) v
              state := current.state.set N bs
                (nextEmpty N current.board current.startPos / N)
                (nextEmpty N current.board current.startPos % N) v
              startPos := nextEmpty N current.board current.startPos + 1 }).map fun sp =>
              solveFromStateCount N bs sp.board sp.startPos).sum
            = solveFromStateCount N bs
                (current.board.set (nextEmpty N current.board current.startPos) v)
                (nextEmpty N current.board current.startPos + 1) := by
        intro v hv
        have hv' := mem_valueRange.mp (List.mem_of_mem_filter hv)
        apply ih
        refine ⟨by rw [List.length_set]; exact hlen,
        by show nextEmpty N current.board current.startPos + 1 ≤ N * N; omega, ?_, ?_⟩
        · exact trackerMatches_set N bs current.board current.state _ v hsq hlen hge
            hzero hv'.1 (by omega) hm
        · exact wf_set current.state N bs _ _ v hwf
      rw [List.map_congr_left hstep]
      rw [solveFromStateCount_walk N bs current.board current.startPos
        (nextEmpty N current.board current.startPos)
        (nextEmpty_ge N current.board current.startPos) (by omega)
        (nextEmpty_filled N current.board current.startPos)]
      rw [solveFromStateCount_branch N bs current.board
        (nextEmpty N current.board current.startPos) hge hzero]

/-! ## Each strategy computes the reference count -/

theorem solveSingleThread_eq (s : SudokuSolver) :
    s.solveSingleThread.numSolutions
      = solveFromStateCount s.N s.blockSize s.board 0 := by
  show (backtrackSingleThread s.N s.blockSize s.board 0).1 = _
  exact backtrackSingleThread_count s.N s.blockSize s.board 0

theorem solveParallel_eq (s : SudokuSolver) (numThreads : Nat) :
    (s.solveParallel numThreads).numSolutions
      = solveFromStateCount s.N s.blockSize s.board 0 := by
  unfold SudokuSolver.solveParallel
  by_cases hge : nextEmpty s.N s.board 0 ≥ s.N * s.N
  · simp only [hge, if_true]
    have hall : ∀ i, 0 ≤ i → i < s.N * s.N → cell s.board i ≠ 0 := by
      intro i h1 h2
      apply nextEmpty_filled s.N s.board 0 i h1
      have := nextEmpty_le s.N s.board 0 (Nat.zero_le _)
      omega
    rw [solveFromStateCount_full s.N s.blockSize s.board 0 (Nat.zero_le _)
      (fun i _ h2 => hall i (Nat.zero_le _) h2)]
  · simp only [hge, if_false]
    push_neg at hge
    have hzero : cell s.board (nextEmpty s.N s.board 0) = 0 :=
      nextEmpty_stop s.N s.board 0 (Nat.zero_le _) hge
    rw [solveFromStateCount_walk s.N s.blockSize s.board 0 (nextEmpty s.N s.board 0)
      (Nat.zero_le _) (by omega) (nextEmpty_filled s.N s.board 0),
      solveFromStateCount_branch s.N s.blockSize s.board (nextEmpty s.N s.board 0)
        hge hzero]
    show ((getPossibleValues s.N s.blockSize s.board _ _).foldl _ 0) = _
    rw [foldl_add]
    unfold getPossibleValues
    simp only [Nat.zero_add, getIndex_div_mod]

theorem solveParallelOptimized_eq (s : SudokuSolver) (numThreads partitionDepth : Nat)
    (hsq : s.blockSize * s.blockSize = s.N) (hN31 : s.N ≤ 31)
    (hlen : s.board.length = s.N * s.N) :
    (s.solveParallelOptimized numThreads partitionDepth).numSolutions
      = solveFromStateCount s.N s.blockSize s.board 0 := by
  have hinv : subInv s.N s.blockSize
      { board := s.board
        state := initialTracker s.N s.blockSize s.board
        startPos := 0 } :=
    ⟨hlen, Nat.zero_le _, trackerMatches_initialTracker s.N s.blockSize s.board hsq,
      initialTracker_wf s.N s.blockSize s.board⟩
  have hsum := generateSubproblemsRecursive_sum s.N s.blockSize hsq hN31
    partitionDepth _ hinv
  unfold SudokuSolver.solveParallelOptimized generateSubproblems
  by_cases hempty : (generateSubproblemsRecursive s.N s.blockSize partitionDepth
      { board := s.board
        state := initialTracker s.N s.blockSize s.board
        startPos := 0 }).isEmpty
  · simp only [hempty, if_true]
    rw [List.isEmpty_iff] at hempty
    rw [hempty] at hsum
    simpa using hsum
  · simp only [hempty, Bool.false_eq_true, if_false]
    rw [← hsum]
    congr 1
    apply List.map_congr_left
    intro sp hsp
    exact solveSubproblem_eq s.N s.blockSize hsq hN31 sp
      (generateSubproblemsRecursive_inv s.N s.blockSize hsq hN31
        partitionDepth _ hinv sp hsp)

/-- C1: for every solver whose dimension is a perfect square
(`blockSize² = N`), `N ≤ 31`, with a loaded `N*N`-cell board, the three
strategies leave the same value in `numSolutions`: `solveSingleThread`,
`solveParallel k` for any `k ≥ 1`, and `solveParallelOptimized k depth` for
any `k ≥ 1`, `depth ≥ 0`. -/
theorem strategy_equivalence (s : SudokuSolver) (k depth : Nat)
    (hsq : s.blockSize * s.blockSize = s.N) (hN31 : s.N ≤ 31)
    (hlen : s.board.length = s.N * s.N) (hk : 1 ≤ k) :
    s.solveSingleThread.numSolutions = (s.solveParallel k).numSolutions ∧
    (s.solveParallel k).numSolutions = (s.solveParallelOptimized k depth).numSolutions := by
  constructor
  · rw [solveSingleThread_eq, solveParallel_eq]
  · rw [solveParallel_eq, solveParallelOptimized_eq s k depth hsq hN31 hlen]

/-- Witness for `strategy_equivalence`: a concrete partially filled 4 x 4
board, `k = 2` workers, partition depth `2`. -/
theorem strategy_equivalence_witness :
    (((SudokuSolver.init 4).loadBoard
        [1,0,0,0, 0,0,1,2, 0,3,0,0, 0,0,0,0]).blockSize *
      ((SudokuSolver.init 4).loadBoard
        [1,0,0,0, 0,0,1,2, 0,3,0,0, 0,0,0,0]).blockSize
      = ((SudokuSolver.init 4).loadBoard [1,0,0,0, 0,0,1,2, 0,3,0,0, 0,0,0,0]).N) ∧
    (((SudokuSolver.init 4).loadBoard
        [1,0,0,0, 0,0,1,2, 0,3,0,0, 0,0,0,0]).solveSingleThread.numSolutions
      = (((SudokuSolver.init 4).loadBoard
          [1,0,0,0, 0,0,1,2, 0,3,0,0, 0,0,0,0]).solveParallel 2).numSolutions) ∧
    ((((SudokuSolver.init 4).loadBoard
        [1,0,0,0, 0,0,1,2, 0,3,0,0, 0,0,0,0]).solveParallel 2).numSolutions
      = (((SudokuSolver.init 4).loadBoard
          [1,0,0,0, 0,0,1,2, 0,3,0,0, 0,0,0,0]).solveParallelOptimized 2 2).numSolutions) := by
  have h := strategy_equivalence
    ((SudokuSolver.init 4).loadBoard [1,0,0,0, 0,0,1,2, 0,3,0,0, 0,0,0,0]) 2 2
    (by decide) (by decide) (by decide) (by decide)
  exact ⟨by decide, h.1, h.2⟩

/-- C2 (amended): `generateSubproblems` at depth `0` always emits exactly one
subproblem (see `depth_zero_identity`), so dead roots are only pruned at
depth ≥ 1, and only through the candidate check of the first expanded cell:
for every solver (perfect-square `N ≤ 31`, loaded board) whose first empty
cell admits no valid candidate value, `generateSubproblems` returns the empty
list at every `partitionDepth ≥ 1` and all three strategies report `0`
solutions. -/
theorem dead_first_cell_empty (s : SudokuSolver) (k depth : Nat)
    (hsq : s.blockSize * s.blockSize = s.N) (hN31 : s.N ≤ 31)
    (hlen : s.board.length = s.N * s.N) (hk : 1 ≤ k) (hdepth : 1 ≤ depth)
    (hp : nextEmpty s.N s.board 0 < s.N * s.N)
    (hdead : ∀ v : Int, 1 ≤ v → v ≤ s.N →
      isValid s.N s.blockSize s.board (nextEmpty s.N s.board 0 / s.N)
        (nextEmpty s.N s.board 0 % s.N) v = false) :
    generateSubproblems s.N s.blockSize s.board depth = [] ∧
    s.solveSingleThread.numSolutions = 0 ∧
    (s.solveParallel k).numSolutions = 0 ∧
    (s.solveParallelOptimized k depth).numSolutions = 0 := by
  have hzero : cell s.board (nextEmpty s.N s.board 0) = 0 :=
    nextEmpty_stop s.N s.board 0 (Nat.zero_le _) hp
  have hfilter : (valueRange s.N).filter (fun v =>
      isValid s.N s.blockSize s.board (nextEmpty s.N s.board 0 / s.N)
        (nextEmpty s.N s.board 0 % s.N) v) = [] := by
    rw [List.filter_eq_nil_iff]
    intro v hv
    rw [hdead v (mem_valueRange.mp hv).1 (mem_valueRange.mp hv).2]
    simp
  have hsc : solveFromStateCount s.N s.blockSize s.board 0 = 0 := by
    rw [solveFromStateCount_walk s.N s.blockSize s.board 0 (nextEmpty s.N s.board 0)
      (Nat.zero_le _) (by omega) (nextEmpty_filled s.N s.board 0),
      solveFromStateCount_branch s.N s.blockSize s.board (nextEmpty s.N s.board 0)
        hp hzero, hfilter]
    rfl
  have hgen : generateSubproblems s.N s.blockSize s.board depth = [] := by
    obtain ⟨d, rfl⟩ : ∃ d, depth = d + 1 := ⟨depth - 1, by omega⟩
    unfold generateSubproblems
    simp only [generateSubproblemsRecursive]
    have hne : ¬(nextEmpty s.N s.board 0 ≥ s.N * s.N) := by omega
    simp only [hne, if_false]
    rw [foldl_append_if, List.nil_append]
    rw [List.filter_congr (fun v hv =>
      canPlace_eq_isValid s.N s.blockSize s.board
        (initialTracker s.N s.blockSize s.board)
        (nextEmpty s.N s.board 0 / s.N) (nextEmpty s.N s.board 0 % s.N) v
        (trackerMatches_initialTracker s.N s.blockSize s.board hsq)
        (pos_div_lt s.N _ hp) (pos_mod_lt s.N _ hp)
        (mem_valueRange.mp hv).1 (mem_valueRange.mp hv).2 hN31)]
    rw [hfilter]
    rfl
  refine ⟨hgen, ?_, ?_, ?_⟩
  · rw [solveSingleThread_eq, hsc]
  · rw [solveParallel_eq, hsc]
  · rw [solveParallelOptimized_eq s k depth hsq hN31 hlen, hsc]

/-- Witness for `dead_first_cell_empty`: on this 4 x 4 board the first empty
cell is flat index 6 (row 1, column 2) and every value `1..4` is blocked
(1, 2 by row 1; 3 by column 2 and its block; 4 by its block), so the
generator output is empty at depth 1 and every strategy reports 0. -/
theorem dead_first_cell_empty_witness :
    nextEmpty 4 [1,2,3,4, 2,1,0,0, 0,0,0,0, 0,0,0,0] 0 < 4 * 4 ∧
    generateSubproblems 4 2 [1,2,3,4, 2,1,0,0, 0,0,0,0, 0,0,0,0] 1 = [] ∧
    ((SudokuSolver.init 4).loadBoard
      [1,2,3,4, 2,1,0,0, 0,0,0,0, 0,0,0,0]).solveSingleThread.numSolutions = 0 ∧
    (((SudokuSolver.init 4).loadBoard
      [1,2,3,4, 2,1,0,0, 0,0,0,0, 0,0,0,0]).solveParallel 2).numSolutions = 0 ∧
    (((SudokuSolver.init 4).loadBoard
      [1,2,3,4, 2,1,0,0, 0,0,0,0, 0,0,0,0]).solveParallelOptimized 2 1).numSolutions = 0 := by
  have h := dead_first_cell_empty
    ((SudokuSolver.init 4).loadBoard [1,2,3,4, 2,1,0,0, 0,0,0,0, 0,0,0,0]) 2 1
    (by decide) (by decide) (by decide) (by decide) (by decide) (by decide)
    (by
      intro v h1 h2
      have h2' : v ≤ (4 : Int) := h2
      interval_cases v <;> decide)
  exact ⟨by decide, h.1, h.2.1, h.2.2.1, h.2.2.2⟩
